import Mathlib

/-!
Verification of the response-normalization layer of the news-writer single-page
application.  Strings are modelled as `List Char` (one entry per UTF-16 code
point of the JavaScript string); the JavaScript functions of
`src/services/geminiService.ts`, `src/services/railwayService.ts`,
`src/pages/ArticleGeneratorPage.tsx` and the unnamed service modules are
translated one by one.  The hosted model call, `JSON.parse` and `DOMParser`
are external platform capabilities; they enter the development as explicit
inputs (a parse outcome, a response record) rather than as re-implemented
engines.
-/

/-- Strings of the JavaScript program, one `Char` per code unit. -/
abbrev Str := List Char

/-- The backtick character (written via its code point). -/
def btick : Char := Char.ofNat 96

/-- The double-quote character (written via its code point). -/
def dquote : Char := Char.ofNat 34

/-- JavaScript whitespace: the characters matched by `\s` and removed by
`String.prototype.trim` (WhiteSpace plus LineTerminator). -/
def isJsWs (c : Char) : Bool :=
  c = ' ' ∨ c = Char.ofNat 9 ∨ c = Char.ofNat 10 ∨ c = Char.ofNat 11 ∨
  c = Char.ofNat 12 ∨ c = Char.ofNat 13 ∨ c = Char.ofNat 0xa0 ∨
  c = Char.ofNat 0x1680 ∨ (0x2000 ≤ c.toNat ∧ c.toNat ≤ 0x200a) ∨
  c = Char.ofNat 0x2028 ∨ c = Char.ofNat 0x2029 ∨ c = Char.ofNat 0x202f ∨
  c = Char.ofNat 0x205f ∨ c = Char.ofNat 0x3000 ∨ c = Char.ofNat 0xfeff

/-- Leading-whitespace removal (`trimStart`). -/
def trimHead (s : Str) : Str := s.dropWhile isJsWs

/-- Trailing-whitespace removal (`trimEnd`). -/
def trimTail (s : Str) : Str := (s.reverse.dropWhile isJsWs).reverse

/-- JS `String.prototype.trim`. -/
def jsTrim (s : Str) : Str := trimTail (trimHead s)

/-- Case-insensitive character comparison (the regex `i` flag; ASCII folding). -/
def lowEq (a b : Char) : Bool := a.toLower = b.toLower

/-- Does `s` start with `pat`, case-insensitively? -/
def ciStartsWith : Str → Str → Bool
  | [], _ => true
  | _ :: _, [] => false
  | p :: ps, c :: cs => lowEq p c && ciStartsWith ps cs

/-- Substring test: does `small` occur (case-sensitively) inside `big`? -/
def containsSub (big small : Str) : Bool :=
  big.tails.any fun t => small.isPrefixOf t

/-! ### Fence matching

The services share two regexes over the raw model text:
`/```(?:html)?([\s\S]*?)```/i` (called `stripCodeFences`),
`/```(?:json)?([\s\S]*?)```/i` (called `extractJsonPayload`) and
`/```(json)?([\s\S]*?)```/i` (`jsonFencePattern`, whose content group is
index 2).  All behave identically up to the recognised tag: find the
leftmost `\x60\x60\x60`, greedily consume the optional tag, then capture
lazily up to the next `\x60\x60\x60`. -/

/-- Split at the first occurrence of three consecutive backticks:
`some (before, after)` with the three backticks removed, else `none`. -/
def splitAtTriple : Str → Option (Str × Str)
  | c0 :: c1 :: c2 :: rest =>
    if c0 = btick ∧ c1 = btick ∧ c2 = btick then some ([], rest)
    else (splitAtTriple (c1 :: c2 :: rest)).map fun p => (c0 :: p.1, p.2)
  | _ => none

/-- Does the string contain three consecutive backticks? -/
def hasTriple (s : Str) : Bool := (splitAtTriple s).isSome

/-- Attempt the fence regex anchored at the start of `s`: if `s` starts with
three backticks, greedily consume the optional case-insensitive `tag`,
then capture lazily up to the next three backticks (backtracking over the
optional tag when no closing fence follows it). -/
def tryFenceAt (tag : Str) (s : Str) : Option Str :=
  match s with
  | c0 :: c1 :: c2 :: rest =>
    if c0 = btick ∧ c1 = btick ∧ c2 = btick then
      if ciStartsWith tag rest then
        match splitAtTriple (rest.drop tag.length) with
        | some p => some p.1
        | none => (splitAtTriple rest).map Prod.fst
      else (splitAtTriple rest).map Prod.fst
    else none
  | _ => none

/-- Leftmost-first scan of the fence regex; returns the content capture
group of the first successful match. -/
def fenceScan (tag : Str) : Str → Option Str
  | [] => none
  | c :: rest =>
    match tryFenceAt tag (c :: rest) with
    | some g => some g
    | none => fenceScan tag rest

def htmlTagChars : Str := ['h', 't', 'm', 'l']

def jsonTagChars : Str := ['j', 's', 'o', 'n']

/-- Function `stripCodeFences` of `geminiService.ts` / `railwayService.ts` (identical
copies): `/```(?:html)?([\s\S]*?)```/i`, returning the trimmed capture when
it is non-empty (JS truthiness of `fenceMatch[1]`), else the trimmed input;
empty input gives the empty string. -/
def stripCodeFences (text : Str) : Str :=
  if text = [] then []
  else
    match fenceScan htmlTagChars text with
    | some g => if g ≠ [] then jsTrim g else jsTrim text
    | none => jsTrim text

/-- Function `extractJsonPayload` of `geminiService.ts` (and the railway copy):
identical to `stripCodeFences` but with the `json` tag. -/
def extractJsonPayload (text : Str) : Str :=
  if text = [] then []
  else
    match fenceScan jsonTagChars text with
    | some g => if g ≠ [] then jsTrim g else jsTrim text
    | none => jsTrim text

/-- The fence step of `fetchTrendingTopics` / `fetchRailwayTopics`:
`text.trim()`, then `jsonFencePattern` with the (untrimmed) second capture
group substituted when truthy. -/
def trendsFenceStep (text : Str) : Str :=
  let t := jsTrim text
  match fenceScan jsonTagChars t with
  | some g => if g ≠ [] then g else t
  | none => t


/-! ### Quote escaping and prompt builders -/

/-- JS `value.replace(/c/g, repl)` for a single-character pattern. -/
def jsReplaceChar (c : Char) (repl : Str) : Str → Str
  | [] => []
  | x :: xs => if x = c then repl ++ jsReplaceChar c repl xs else x :: jsReplaceChar c repl xs

namespace Gemini

/-- Function `escapeDoubleQuotes` of `geminiService.ts` line 29:
`value.replace(/"/g, '\"')`.  In a JavaScript single-quoted literal the
sequence backslash-quote denotes just the quote character, so the
replacement string is a single double-quote. -/
def escapeDoubleQuotes (value : Str) : Str := jsReplaceChar dquote [dquote] value

/-- Template text of `buildArticlePrompt` before the interpolated topic. -/
def articlePromptPre : Str := "Based on the news topic \"".data

/-- Shared `OUTPUT_FORMAT_INSTRUCTIONS` constant of `geminiService.ts`. -/
def outputFormatInstructions : Str :=
  ("Return your final answer as a JSON object with exactly two keys: \"articleHtml\" and \"seoKeywords\".\n- The \"articleHtml\" value must contain the full HTML article string suitable for direct rendering.\n- The \"seoKeywords\" value must be an array of 6 to 10 unique keyword phrases tailored for Yoast SEO; each phrase should be concise (maximum five words).\n- Do not add explanatory text, commentary, or markdown fences outside of the JSON object.").data

/-- Template text of `buildArticlePrompt` after the interpolated topic. -/
def articlePromptPost : Str :=
  ("\", please perform the following task:\n\nImagine yourself as an SEO expert and a world-class content writer. Your primary goal is to provide the **most recent, up-to-the-minute information** on this topic. Use Google Search to find details and developments specifically from the **last 24-48 hours**.\n\nWrite a content of 800 words on the topic. The article should:\n- Prioritize the latest facts and events.\n- Score high in SEO.\n- Be completely original and avoid plagiarism.\n- Be written in the style of a professional news reporter or a top-tier blog writer.\n- Be a high-quality article with excellent readability.\n- Comply with all Google AdSense program policies.\n- The content should be true and accurate.\n- Content should relate to Sri Lanka.\n- Present the final article content in clean, well-structured HTML using tags like <h1>, <h2>, <p>, and <strong>; avoid markdown backticks or extraneous wrappers.\n\n").data
  ++ outputFormatInstructions

/-- Function `buildArticlePrompt` of `geminiService.ts`: the template with the
escaped topic interpolated. -/
def buildArticlePrompt (topic : Str) : Str :=
  articlePromptPre ++ escapeDoubleQuotes topic ++ articlePromptPost

end Gemini

namespace Railway

/-- Function `escapeDoubleQuotes` of `railwayService.ts` line 29 (and of the
unnamed article-generator services): `value.replace(/"/g, '\\"')` — here the
replacement literal really is backslash-quote. -/
def escapeDoubleQuotes (value : Str) : Str :=
  jsReplaceChar dquote ['\\', dquote] value

/-- Template text of `buildRailwayArticlePrompt` before the topic. -/
def railwayPromptPre : Str :=
  ("You are an expert travel journalist and SEO specialist writing for SriLankanRailways.com, an online magazine dedicated to Sri Lanka\x27s rail journeys.\n\nWrite an original article of roughly 800 words about \"").data

/-- Template text of `buildRailwayArticlePrompt` after the topic. -/
def railwayPromptPost : Str :=
  ("\". Prioritize rich storytelling that would inspire tourists while remaining factual and respectful. The article must:\n- Be completely unique and free of plagiarism.\n- Feel welcoming to international travelers and local rail enthusiasts alike.\n- Highlight sensory details, cultural context, history, practical tips, and reasons the subject is special.\n- Be structured for outstanding SEO performance without keyword stuffing.\n- Remain suitable for Google AdSense and family-friendly audiences.\n- Adopt a polished magazine tone consistent with SriLankanRailways.com.\n\nDeliver the final output as a single block of clean, semantic HTML (use <h1>, <h2>, <p>, <strong>, <ul>/<li> if needed). Do not include markdown fences or explanatory text.").data

/-- Function `buildRailwayArticlePrompt` of `railwayService.ts`. -/
def buildRailwayArticlePrompt (topic : Str) : Str :=
  railwayPromptPre ++ escapeDoubleQuotes topic ++ railwayPromptPost

end Railway

/-! ### Generic global regex replacement

Each sanitizer regex is compiled to a matcher `Str → Option Nat` giving the
length of the match anchored at the head of the string, or `none`.  The
global `String.prototype.replace` scans left to right, substitutes each
match and continues after it.  The scan is written with an explicit fuel
argument (the string length suffices) so that it stays structurally
recursive and computable by `rfl`/`decide`. -/

def replaceAux (matchAt : Str → Option Nat) (repl : Str) : Nat → Str → Str
  | 0, s => s
  | _ + 1, [] => []
  | fuel + 1, c :: rest =>
    match matchAt (c :: rest) with
    | some (n + 1) => repl ++ replaceAux matchAt repl fuel ((c :: rest).drop (n + 1))
    | _ => c :: replaceAux matchAt repl fuel rest

/-- JS `s.replace(re, repl)` with the `g` flag, for a regex that never
matches the empty string (all the regexes below match at least one
character). -/
def replaceMatches (matchAt : Str → Option Nat) (repl : Str) (s : Str) : Str :=
  replaceAux matchAt repl s.length s

/-- Length of `[^>]*>` anchored at the head: up to and including the first
`>`, or `none` when there is no `>`. -/
def scanToGt : Str → Option Nat
  | [] => none
  | c :: r => if c = '>' then some 1 else (scanToGt r).map (· + 1)

/-- Matcher for `\s*NAME[^>]*>` (the part of a wrapper-tag regex after the
optional slash): greedy whitespace, the case-insensitive tag name, then up
to the first `>`. -/
def tagAfterSlash (name : Str) : Str → Option Nat
  | [] => none
  | c :: r =>
    if isJsWs c then (tagAfterSlash name r).map (· + 1)
    else if ciStartsWith name (c :: r) then
      (scanToGt ((c :: r).drop name.length)).map (name.length + ·)
    else none

/-- Matcher for `<\/?\s*NAME[^>]*>/i` anchored at the head. -/
def tagMatchAt (name : Str) (s : Str) : Option Nat :=
  match s with
  | c :: r =>
    if c = '<' then
      match r with
      | c2 :: r2 =>
        if c2 = '/' then (tagAfterSlash name r2).map (· + 2)
        else (tagAfterSlash name r).map (· + 1)
      | [] => none
    else none
  | [] => none

/-- Matcher for `<!DOCTYPE[^>]*>/i` anchored at the head. -/
def doctypeMatchAt (s : Str) : Option Nat :=
  match s with
  | c0 :: c1 :: r =>
    if c0 = '<' ∧ c1 = '!' ∧ ciStartsWith ("doctype".data) r then
      (scanToGt (r.drop 7)).map (9 + ·)
    else none
  | _ => none

/-- Function `sanitizeArticleHtml` of `geminiService.ts` lines 68-86 (and its
copies): doctype removal and trim, then the wrapper-tag stripping of the
non-browser path (mirrored here; the browser path delegates to the external
`DOMParser` capability, which is outside this repository). -/
def sanitizeArticleHtml (rawHtml : Str) : Str :=
  let withoutDoctype := jsTrim (replaceMatches doctypeMatchAt [] rawHtml)
  jsTrim
    (replaceMatches (tagMatchAt "title".data) []
      (replaceMatches (tagMatchAt "meta".data) []
        (replaceMatches (tagMatchAt "head".data) []
          (replaceMatches (tagMatchAt "body".data) []
            (replaceMatches (tagMatchAt "html".data) [] withoutDoctype)))))


/-! ### Meta-description helpers of `ArticleGeneratorPage.tsx` -/

/-- First index (if any) at which `pat` occurs case-insensitively. -/
def findCi (pat : Str) : Str → Option Nat
  | [] => if pat = [] then some 0 else none
  | c :: r =>
    if ciStartsWith pat (c :: r) then some 0 else (findCi pat r).map (· + 1)

/-- Matcher for `<style[\s\S]*?<\/style>/i`: the literal opener, lazily up to
the first closing literal. -/
def styleBlockAt (s : Str) : Option Nat :=
  if ciStartsWith "<style".data s then
    (findCi "</style>".data (s.drop 6)).map fun k => 6 + k + 8
  else none

/-- Matcher for `<script[\s\S]*?<\/script>/i`. -/
def scriptBlockAt (s : Str) : Option Nat :=
  if ciStartsWith "<script".data s then
    (findCi "</script>".data (s.drop 7)).map fun k => 7 + k + 9
  else none

/-- Matcher for `<[^>]+>`: a `<`, at least one non-`>` character, then `>`. -/
def anyTagAt (s : Str) : Option Nat :=
  match s with
  | '<' :: r =>
    match scanToGt r with
    | some n => if 2 ≤ n then some (1 + n) else none
    | none => none
  | _ => none

/-- Matcher for the literal `&nbsp;` (case-insensitive). -/
def nbspAt (s : Str) : Option Nat :=
  if ciStartsWith "&nbsp;".data s then some 6 else none

/-- Matcher for `\s+`: a maximal run of whitespace. -/
def wsRunAt (s : Str) : Option Nat :=
  match s with
  | c :: r => if isJsWs c then some ((r.takeWhile isJsWs).length + 1) else none
  | [] => none

/-- Whitespace collapsing, `.replace(/\s+/g, " ")`. -/
def collapseWs (s : Str) : Str := replaceMatches wsRunAt [' '] s

/-- Function `htmlToPlainText` of `ArticleGeneratorPage.tsx` lines 11-18. -/
def htmlToPlainText (html : Str) : Str :=
  jsTrim
    (collapseWs
      (replaceMatches nbspAt [' ']
        (replaceMatches anyTagAt [' ']
          (replaceMatches scriptBlockAt [' ']
            (replaceMatches styleBlockAt [' '] html)))))

/-- JS `lastIndexOf(' ')` as an optional index (`-1` becomes `none`). -/
def lastSpaceIdx (s : Str) : Option Nat :=
  (s.reverse.findIdx? fun c => c = ' ').map fun k => s.length - 1 - k

/-- Characters stripped from the end before the ellipsis: the class
`[\s.,;:-]`. -/
def isTrailStrip (c : Char) : Bool :=
  isJsWs c ∨ c = '.' ∨ c = ',' ∨ c = ';' ∨ c = ':' ∨ c = '-'

/-- Integer value of `Math.floor(maxLength * 0.6)`; exact for the one value
used by the page (`155`, giving `93`, as under IEEE doubles). -/
def floorSixTenths (n : Nat) : Nat := 3 * n / 5

/-- The `base` computed by `truncateWithEllipsis` in its truncating branch:
the first `maxLength` characters, cut back to the last space when that
space lies past 60% of the maximum. -/
def ellipsisBase (value : Str) (maxLength : Nat) : Str :=
  let truncated := value.take maxLength
  match lastSpaceIdx truncated with
  | some i => if floorSixTenths maxLength < i then truncated.take i else truncated
  | none => truncated

/-- Function `truncateWithEllipsis` of `ArticleGeneratorPage.tsx` lines 20-28. -/
def truncateWithEllipsis (value : Str) (maxLength : Nat) : Str :=
  if value.length ≤ maxLength then value
  else ((ellipsisBase value maxLength).reverse.dropWhile isTrailStrip).reverse ++ "...".data

/-- JS `\w` word characters, `[A-Za-z0-9_]`. -/
def isWordChar (c : Char) : Bool := c.isAlpha ∨ c.isDigit ∨ c = '_'

/-- Is the character at position `p` (if any) a word character? -/
def wordAt (s : Str) (p : Nat) : Bool :=
  match s.drop p with
  | c :: _ => isWordChar c
  | [] => false

/-- The regex `\b` word-boundary test at position `p` of `s`. -/
def boundaryAt (s : Str) (p : Nat) : Bool :=
  (if p = 0 then false else wordAt s (p - 1)) != wordAt s p

/-- Characters with special meaning in a JavaScript regular-expression
pattern; a keyword built only from other characters compiles literally. -/
def regexMetaChars : Str :=
  ['.', '*', '+', '?', '^', '$', Char.ofNat 123, Char.ofNat 125,
   '(', ')', '|', '[', ']', '\\']

/-- Keywords none of whose characters is a regex metacharacter: exactly the
keywords on which `buildMetaDescription` is modelled faithfully below. -/
def plainKeyword (keyword : Str) : Bool :=
  keyword.all fun c => !(regexMetaChars.contains c)

/-- The test of the constructed pattern
`new RegExp("\\b" + keyword.replace(/[.*+?^${}()|[\\]\\\\]/g, "\\$&") + "\\b", "i")`,
modelled only for keywords that satisfy `plainKeyword`.  The escaping
replace in the source is broken: in the literal the character class is
already closed by the `]` that follows `\\`, so the regex means one class
character followed by `\\]` — a backslash-free keyword never contains such
a match and passes through unchanged.  The raw keyword therefore reaches
`new RegExp`.  For a `plainKeyword` every character of the resulting
pattern is literal, so the test holds exactly when the keyword itself
occurs in the text, case-insensitively, between word boundaries, which is
what this definition computes.  A keyword holding a metacharacter is
outside this model: `(` makes the real constructor throw a SyntaxError, and
in `a.b` the dot matches as a wildcard. -/
def keywordMatches (keyword text : Str) : Bool :=
  (List.range (text.length + 1)).any fun i =>
    ciStartsWith keyword (text.drop i) && boundaryAt text i &&
      boundaryAt text (i + keyword.length)

/-- The page constant `META_DESCRIPTION_MAX_LENGTH`. -/
def metaDescriptionMaxLength : Nat := 155

/-- Function `buildMetaDescription` of `ArticleGeneratorPage.tsx` lines 31-40.
Faithful for every `plainKeyword`; for a keyword with a regex metacharacter
the real function can throw inside the `RegExp` constructor (see
`keywordMatches`), except on the empty-plain-text branch, which returns
before the pattern is built. -/
def buildMetaDescription (keyword articleHtml : Str) : Str :=
  let plainText := htmlToPlainText articleHtml
  if plainText = [] then truncateWithEllipsis keyword metaDescriptionMaxLength
  else
    let hydratedText :=
      if keywordMatches keyword plainText then plainText
      else keyword ++ ('.' :: ' ' :: plainText)
    let cleaned := jsTrim (collapseWs hydratedText)
    truncateWithEllipsis cleaned metaDescriptionMaxLength


/-! ### JSON values and the trends / article extraction

`JSON.parse` is a platform capability; its outcome enters as an explicit
`Except Unit Json` input (`.error ()` for a `SyntaxError`, `.ok j` for the
parsed value).  A parsed object is an association list without duplicate
keys (as produced by the engine); `null`, booleans, numbers, strings,
arrays and objects are the possible values. -/

inductive Json where
  | null : Json
  | bool (b : Bool) : Json
  | num (v : Rat) : Json
  | str (s : Str) : Json
  | arr (elems : List Json) : Json
  | obj (fields : List (Str × Json)) : Json

/-- JS property lookup `value[key]`: defined on objects, `undefined`
(`none`) on every other non-null value.  (On `null` the access throws; the
service bodies below handle that case explicitly.) -/
def Json.lookup (j : Json) (key : Str) : Option Json :=
  match j with
  | .obj fields => (fields.find? fun f => f.1 == key).map Prod.snd
  | _ => none

/-- The grounding citation record (`types.ts`). -/
structure GroundingSource where
  uri : Str
  title : Str
deriving DecidableEq

/-- A list element returned by the trends services: the parsed JSON element
spread into a new object (`{ ...topic, sources }`) together with the shared
source list. -/
structure TopicRecord where
  raw : Json
  sources : List GroundingSource

/-- Errors thrown inside a service `try` block: a `SyntaxError` from
`JSON.parse`, the `TypeError` of a property access on `null`, or an
explicitly constructed `Error` (whose `name` is `"Error"`). -/
inductive JsErr where
  | syntaxError : JsErr
  | typeError (msg : String) : JsErr
  | jsError (msg : String) : JsErr

/-- V8 wording of the `TypeError` thrown by `null.trends`. -/
def nullTrendsMsg : String := "Cannot read properties of null (reading \x27trends\x27)"

/-- The shape-error message thrown when `trends` is missing or not an array. -/
def invalidTrendsMsg : String := "Invalid response format from API. Expected a \x27trends\x27 array."

/-- The message substituted for a `SyntaxError` in the catch blocks. -/
def parseFailureMsg : String := "Failed to parse the JSON response from the API. Please try again."

/-- The `trends` lookup result as an array, when it is one. -/
def trendsArray? (j : Json) : Option (List Json) :=
  match j.lookup "trends".data with
  | some (.arr xs) => some xs
  | _ => none

/-- Body of the `try` block of `fetchTrendingTopics` / `fetchRailwayTopics`
after the model call, lines 119-130 of `geminiService.ts`: parse outcome,
`null` access check, the `!parsed.trends || !Array.isArray(parsed.trends)`
guard (an array is always truthy and everything else fails `isArray`, so
the guard reduces to "not an array"), then the per-element spread — with no
validation of the element shapes. -/
def trendsBody (parsed : Except Unit Json) (sources : List GroundingSource) :
    Except JsErr (List TopicRecord) :=
  match parsed with
  | .error _ => .error .syntaxError
  | .ok .null => .error (.typeError nullTrendsMsg)
  | .ok j =>
    match trendsArray? j with
    | some xs => .ok (xs.map fun t => { raw := t, sources := sources })
    | none => .error (.jsError invalidTrendsMsg)

/-- The catch block shared by the two topic services: a `SyntaxError` is
replaced by the fixed parse-failure message, every other `Error` is wrapped
with the operation prefix. -/
def wrapCatch {α : Type} (opPrefix : String) : Except JsErr α → Except String α
  | .ok a => .ok a
  | .error .syntaxError => .error parseFailureMsg
  | .error (.typeError m) => .error (opPrefix ++ m)
  | .error (.jsError m) => .error (opPrefix ++ m)

def newsTrendsPrefix : String := "Failed to fetch news trends: "

def railwayTrendsPrefix : String := "Failed to fetch railway trends: "

/-- Function `fetchTrendingTopics` of `geminiService.ts` from the parse
outcome on: extraction wrapped by the catch block. -/
def fetchTrendingTopicsResult (parsed : Except Unit Json)
    (sources : List GroundingSource) : Except String (List TopicRecord) :=
  wrapCatch newsTrendsPrefix (trendsBody parsed sources)

/-! ### The Fisher-Yates shuffle of `fetchRailwayTopics` -/

/-- Swap the entries at positions `i` and `j`
(`[a[i], a[j]] = [a[j], a[i]]`). -/
def listSwap {α : Type} (l : List α) (i j : Nat) : List α :=
  match l.get? i, l.get? j with
  | some a, some b => (l.set i b).set j a
  | _, _ => l

/-- The descending loop `for (let i = n-1; i > 0; i--)`: `draws i` is the
value `Math.floor(Math.random() * (i+1))` drawn at loop index `i`. -/
def fyAux {α : Type} (draws : Nat → Nat) : List α → Nat → List α
  | a, 0 => a
  | a, i + 1 => fyAux draws (listSwap a (i + 1) (draws (i + 1))) i

/-- The client-side shuffle of `fetchRailwayTopics` lines 92-95. -/
def fyShuffle {α : Type} (draws : Nat → Nat) (l : List α) : List α :=
  fyAux draws l (l.length - 1)

/-- Function `fetchRailwayTopics` of `railwayService.ts` from the parse
outcome on: same extraction, then the shuffle, wrapped by its catch block. -/
def fetchRailwayTopicsResult (parsed : Except Unit Json)
    (sources : List GroundingSource) (draws : Nat → Nat) :
    Except String (List TopicRecord) :=
  wrapCatch railwayTrendsPrefix ((trendsBody parsed sources).map (fyShuffle draws))

/-! ### Article-payload extraction (`generateDetailedSummary`,
`generateRailwayArticle`) -/

/-- HTML-field selection, lines 177-185: `articleHtml` first, then
`article_html`, each only when it is a string; otherwise the empty
string. -/
def selectRawHtml (parsed : Json) : Str :=
  match parsed.lookup "articleHtml".data with
  | some (.str s) => s
  | _ =>
    match parsed.lookup "article_html".data with
    | some (.str s) => s
    | _ => []

/-- Keyword-array selection, lines 192-196: `seoKeywords` first, then
`seo_keywords`, each only when it is an array; otherwise the empty list. -/
def selectRawKeywords (parsed : Json) : List Json :=
  match parsed.lookup "seoKeywords".data with
  | some (.arr xs) => xs
  | _ =>
    match parsed.lookup "seo_keywords".data with
    | some (.arr xs) => xs
    | _ => []

/-- The map step `keyword => typeof keyword === "string" ? keyword.trim() : ""`. -/
def coerceKeyword : Json → Str
  | .str s => jsTrim s
  | _ => []

/-- JS `array.indexOf(x)` over the mapped list (first index, or the length
when absent — the elements passed in always occur). -/
def jsIndexOf (xs : List Str) (x : Str) : Nat := xs.findIdx fun y => y == x

/-- The filter step
`(keyword, index, array) => Boolean(keyword) && array.indexOf(keyword) === index`. -/
def jsKeywordFilter (mapped : List Str) : List Str :=
  (mapped.enum.filter fun p => p.2 ≠ ([] : Str) ∧ jsIndexOf mapped p.2 = p.1).map Prod.snd

/-- The whole keyword pipeline of lines 192-199. -/
def selectSeoKeywords (parsed : Json) : List Str :=
  jsKeywordFilter ((selectRawKeywords parsed).map coerceKeyword)

/-! ### Grounding-source extraction -/

/-- The optional `web` payload of a grounding chunk. -/
structure WebInfo where
  uri : Option Str
  title : Option Str

/-- One grounding chunk of the model response. -/
structure Chunk where
  web : Option WebInfo

/-- The optional grounding metadata of a candidate. -/
structure GroundingMetadata where
  groundingChunks : Option (List Chunk)

/-- One response candidate. -/
structure Candidate where
  groundingMetadata : Option GroundingMetadata

/-- The model response as far as grounding extraction reads it. -/
structure ModelResponse where
  candidates : Option (List Candidate)

/-- Function `extractGroundingSources` of the unnamed article service
(and the inline copies in the two topic services):
`response.candidates?.[0]?.groundingMetadata?.groundingChunks ?? []`,
mapped to `{ uri: chunk.web?.uri ?? "", title: chunk.web?.title ?? "" }`
and filtered by `Boolean(source.uri)`.  The per-chunk map is split out as
`chunkToSource`. -/
def chunkToSource (chunk : Chunk) : GroundingSource :=
  { uri := (chunk.web.bind WebInfo.uri).getD []
    title := (chunk.web.bind WebInfo.title).getD [] }

def extractGroundingSources (response : ModelResponse) : List GroundingSource :=
  let chunks :=
    (match response.candidates with
     | some (c :: _) =>
       match c.groundingMetadata with
       | some md => md.groundingChunks
       | none => none
     | _ => none).getD []
  (chunks.map chunkToSource).filter fun source => source.uri ≠ []

/-- Case-insensitive equality of two strings. -/
def ciEq : Str → Str → Bool
  | [], [] => true
  | a :: as, b :: bs => lowEq a b && ciEq as bs
  | _, _ => false

/-- No suffix of `s` is matched by `matchAt`: the corresponding global
`replace` leaves `s` unchanged. -/
def NoMatch (matchAt : Str → Option Nat) (s : Str) : Prop :=
  ∀ t : Str, t <:+ s → matchAt t = none

/-- Decidable version of `NoMatch`, over the list of suffixes. -/
def noMatchB (matchAt : Str → Option Nat) (s : Str) : Bool :=
  s.tails.all fun t => (matchAt t).isNone

/-- Collapsed whitespace shape: no two adjacent whitespace characters, and
every whitespace character is a plain space. -/
def goodWs (s : Str) : Prop :=
  List.Chain' (fun a b => ¬(isJsWs a = true ∧ isJsWs b = true)) s ∧
    ∀ c ∈ s, isJsWs c = true → c = ' '

/-- Order-preserving first-occurrence deduplication, written with an
accumulator of already-seen values.  This is the specification-side
description of the keyword filter ("deduplicate preserving first-occurrence
order"), to be compared with the source-side `jsKeywordFilter`. -/
def dedupSeen (seen : List Str) : List Str → List Str
  | [] => []
  | x :: xs => if x ∈ seen then dedupSeen seen xs else x :: dedupSeen (x :: seen) xs

/-! ### General lemmas about trimming -/

theorem dropWhile_dropWhile (p : Char → Bool) (l : Str) :
    (l.dropWhile p).dropWhile p = l.dropWhile p := by
  induction l with
  | nil => rfl
  | cons c r ih => by_cases h : p c <;> simp [List.dropWhile_cons, h, ih]

theorem dropWhile_head_not (p : Char → Bool) (l : Str) :
    ∀ c r, l.dropWhile p = c :: r → p c = false := by
  induction l with
  | nil => intro c r h; simp at h
  | cons a t ih =>
    intro c r h
    rw [List.dropWhile_cons] at h
    by_cases ha : p a
    · exact ih c r (by simpa [ha] using h)
    · simp only [ha, if_false] at h
      obtain ⟨rfl, rfl⟩ := List.cons.inj h
      simpa using ha

theorem trimHead_idem (s : Str) : trimHead (trimHead s) = trimHead s :=
  dropWhile_dropWhile _ _

theorem trimTail_idem (s : Str) : trimTail (trimTail s) = trimTail s := by
  unfold trimTail
  rw [List.reverse_reverse, dropWhile_dropWhile]

theorem trimTail_prefix_ex (s : Str) : ∃ u, trimTail s ++ u = s := by
  have h := List.dropWhile_suffix (l := s.reverse) isJsWs
  have h2 := List.reverse_prefix.mpr h
  rw [List.reverse_reverse] at h2
  exact h2

theorem dropWhile_eq_drop_ex (p : Char → Bool) (l : Str) :
    ∃ n, l.dropWhile p = l.drop n := by
  induction l with
  | nil => exact ⟨0, rfl⟩
  | cons c r ih =>
    by_cases h : p c
    · obtain ⟨n, hn⟩ := ih
      exact ⟨n + 1, by simp [List.dropWhile_cons, h, hn]⟩
    · exact ⟨0, by simp [List.dropWhile_cons, h]⟩

theorem trimHead_of_trimmed (m : Str) (hm : trimHead m = m) :
    trimHead (trimTail m) = trimTail m := by
  cases h : trimTail m with
  | nil => rfl
  | cons c t =>
    obtain ⟨u, hu⟩ := trimTail_prefix_ex m
    rw [h] at hu
    have hmc : m.dropWhile isJsWs = c :: (t ++ u) := by
      show trimHead m = c :: (t ++ u)
      rw [hm, ← hu, List.cons_append]
    have hc : isJsWs c = false := dropWhile_head_not isJsWs m c (t ++ u) hmc
    show (c :: t).dropWhile isJsWs = c :: t
    simp [List.dropWhile_cons, hc]

theorem jsTrim_idem (s : Str) : jsTrim (jsTrim s) = jsTrim s := by
  unfold jsTrim
  rw [trimHead_of_trimmed (trimHead s) (trimHead_idem s), trimTail_idem]

/-! ### Lemmas about the swap loop -/

theorem coe_set_singleton {α : Type} (l : List α) (i : Nat) (b : α) (h : i < l.length) :
    ((l.set i b : List α) : Multiset α) + {l.get ⟨i, h⟩} = (l : Multiset α) + {b} := by
  induction l generalizing i with
  | nil => simp at h
  | cons c t ih =>
    cases i with
    | zero =>
      show ((b :: t : List α) : Multiset α) + {c} = ((c :: t : List α) : Multiset α) + {b}
      simp only [← Multiset.cons_coe, ← Multiset.singleton_add]
      abel
    | succ n =>
      have hn : n < t.length := by simpa using h
      have base := ih n hn
      show ((c :: t.set n b : List α) : Multiset α) + {t.get ⟨n, hn⟩} =
        ((c :: t : List α) : Multiset α) + {b}
      simp only [← Multiset.cons_coe, ← Multiset.singleton_add, add_assoc]
      rw [base]

theorem listSwap_perm {α : Type} (l : List α) (i j : Nat) :
    List.Perm (listSwap l i j) l := by
  unfold listSwap
  cases hi : l.get? i with
  | none => exact List.Perm.refl l
  | some a =>
    cases hj : l.get? j with
    | none => exact List.Perm.refl l
    | some b =>
      obtain ⟨hi', hia⟩ := List.get?_eq_some.mp hi
      obtain ⟨hj', hjb⟩ := List.get?_eq_some.mp hj
      have hj2 : j < (l.set i b).length := by simpa using hj'
      have e1 : ((l.set i b : List α) : Multiset α) + {a} = (l : Multiset α) + {b} := by
        have := coe_set_singleton l i b hi'
        rwa [hia] at this
      have hgetj : (l.set i b).get ⟨j, hj2⟩ = b := by
        by_cases hij : i = j
        · subst hij
          simp
        · simp only [List.get_eq_getElem]
          rw [List.getElem_set_ne hij]
          simpa [List.get_eq_getElem] using hjb
      have e2 := coe_set_singleton (l.set i b) j a hj2
      rw [hgetj] at e2
      have : (((l.set i b).set j a : List α) : Multiset α) = (l : Multiset α) :=
        add_right_cancel (e2.trans e1)
      exact Multiset.coe_eq_coe.mp this

theorem fyAux_perm {α : Type} (draws : Nat → Nat) :
    ∀ (i : Nat) (a : List α), List.Perm (fyAux draws a i) a
  | 0, _ => List.Perm.refl _
  | i + 1, a =>
    (fyAux_perm draws i (listSwap a (i + 1) (draws (i + 1)))).trans
      (listSwap_perm a (i + 1) (draws (i + 1)))

theorem fyShuffle_perm {α : Type} (draws : Nat → Nat) (l : List α) :
    List.Perm (fyShuffle draws l) l :=
  fyAux_perm draws (l.length - 1) l

/-! ### Helper lemmas for the service bodies -/

theorem jsReplaceChar_self (c : Char) (v : Str) : jsReplaceChar c [c] v = v := by
  induction v with
  | nil => rfl
  | cons x xs ih => by_cases h : x = c <;> simp [jsReplaceChar, h, ih]

theorem trendsBody_ok (j : Json) (sources : List GroundingSource) (xs : List Json)
    (hx : trendsArray? j = some xs) :
    trendsBody (.ok j) sources = .ok (xs.map fun t => { raw := t, sources := sources }) := by
  cases j with
  | null => simp [trendsArray?, Json.lookup] at hx
  | bool b => simp [trendsBody, hx]
  | num v => simp [trendsBody, hx]
  | str s => simp [trendsBody, hx]
  | arr es => simp [trendsBody, hx]
  | obj fs => simp [trendsBody, hx]

theorem trendsBody_shape_err (j : Json) (sources : List GroundingSource)
    (hnull : j ≠ Json.null) (hx : trendsArray? j = none) :
    trendsBody (.ok j) sources = .error (.jsError invalidTrendsMsg) := by
  cases j with
  | null => exact absurd rfl hnull
  | bool b => simp [trendsBody, hx]
  | num v => simp [trendsBody, hx]
  | str s => simp [trendsBody, hx]
  | arr es => simp [trendsBody, hx]
  | obj fs => simp [trendsBody, hx]

/-- C3: the spec claims every service escapes embedded double quotes of the
topic before interpolation.  The railway service does, but the general news
service's `escapeDoubleQuotes` uses the replacement literal `'\"'`, which
denotes a plain quote, so it is the identity and `buildArticlePrompt`
interpolates the topic verbatim — a slip, since the sibling services spell
the same helper with `'\\"'`. -/
theorem c3_escape_bug :
    (∀ v : Str, Gemini.escapeDoubleQuotes v = v) ∧
    (∀ t : Str, Gemini.buildArticlePrompt t =
      Gemini.articlePromptPre ++ t ++ Gemini.articlePromptPost) ∧
    Railway.escapeDoubleQuotes [dquote] = ['\\', dquote] ∧
    Gemini.escapeDoubleQuotes [dquote] ≠ ['\\', dquote] := by
  refine ⟨jsReplaceChar_self dquote, ?_, by decide, by decide⟩
  intro t
  simp [Gemini.buildArticlePrompt, Gemini.escapeDoubleQuotes, jsReplaceChar_self]

/-- C10: when the article HTML strips to empty plain text,
`buildMetaDescription` returns the keyword put through the
ellipsis-truncation rule, which leaves it unchanged whenever it is at most
155 characters long. -/
theorem c10_empty_plaintext (keyword html : Str) (h : htmlToPlainText html = []) :
    buildMetaDescription keyword html =
      truncateWithEllipsis keyword metaDescriptionMaxLength ∧
    (keyword.length ≤ 155 → buildMetaDescription keyword html = keyword) := by
  have hb : buildMetaDescription keyword html =
      truncateWithEllipsis keyword metaDescriptionMaxLength := by
    simp [buildMetaDescription, h]
  refine ⟨hb, fun hk => ?_⟩
  rw [hb]
  simp [truncateWithEllipsis, metaDescriptionMaxLength, hk]

/-- C10 witness: markup with no text content, keyword of length at most
155. -/
theorem c10_witness :
    htmlToPlainText ("<p></p>".data) = [] ∧
    buildMetaDescription ("trains".data) ("<p></p>".data) = "trains".data :=
  ⟨by decide,
   (c10_empty_plaintext ("trains".data) ("<p></p>".data) (by decide)).2 (by decide)⟩

/-- C7: grounding-source extraction is total: a missing `candidates`, first
candidate, `groundingMetadata` or `groundingChunks` yields `[]`; otherwise
each chunk maps to its `web.uri`/`web.title` with empty-string defaults,
entries with an empty `uri` are filtered out, the order is preserved (the
result is a sublist of the mapped chunks) and no deduplication happens. -/
theorem c7_grounding_total (r : ModelResponse) :
    (r.candidates = none → extractGroundingSources r = []) ∧
    (r.candidates = some [] → extractGroundingSources r = []) ∧
    (∀ c cs, r.candidates = some (c :: cs) → c.groundingMetadata = none →
      extractGroundingSources r = []) ∧
    (∀ c cs md, r.candidates = some (c :: cs) → c.groundingMetadata = some md →
      md.groundingChunks = none → extractGroundingSources r = []) ∧
    (∀ c cs md l, r.candidates = some (c :: cs) → c.groundingMetadata = some md →
      md.groundingChunks = some l →
      extractGroundingSources r =
        (l.map chunkToSource).filter (fun s => s.uri ≠ ([] : Str)) ∧
      List.Sublist (extractGroundingSources r) (l.map chunkToSource) ∧
      ∀ s ∈ extractGroundingSources r, s.uri ≠ ([] : Str)) := by
  refine ⟨?_, ?_, ?_, ?_, ?_⟩
  · intro h; simp [extractGroundingSources, h]
  · intro h; simp [extractGroundingSources, h]
  · intro c cs h hm; simp [extractGroundingSources, h, hm]
  · intro c cs md h hm hc; simp [extractGroundingSources, h, hm, hc]
  · intro c cs md l h hm hc
    have he : extractGroundingSources r =
        (l.map chunkToSource).filter (fun s => s.uri ≠ ([] : Str)) := by
      simp [extractGroundingSources, h, hm, hc]
    refine ⟨he, ?_, ?_⟩
    · rw [he]; exact List.filter_sublist _
    · intro s hs
      rw [he] at hs
      simpa using (List.mem_filter.mp hs).2

/-- C7 witness: the example of the spec — one sourceless chunk, one real
one. -/
theorem c7_witness :
    extractGroundingSources
        ⟨some [⟨some ⟨some [⟨some ⟨some [], some ("x".data)⟩⟩,
          ⟨some ⟨some ("http://a".data), some ("A".data)⟩⟩]⟩⟩]⟩ =
      [⟨"http://a".data, "A".data⟩] := by
  rw [((c7_grounding_total _).2.2.2.2 _ [] _ _ rfl rfl rfl).1]
  decide

/-- C2 counterexample: a `trends` array whose single element has neither
`topic` nor `summary` is accepted — the call returns the element rather
than failing, refuting fail-atomicity as claimed. -/
theorem c2_counterexample :
    fetchTrendingTopicsResult
        (.ok (Json.obj [("trends".data, Json.arr [Json.obj []])])) [] =
      .ok [{ raw := Json.obj [], sources := [] }] ∧
    ∀ e, fetchTrendingTopicsResult
        (.ok (Json.obj [("trends".data, Json.arr [Json.obj []])])) [] ≠ .error e :=
  ⟨rfl, fun _ h => Except.noConfusion h⟩

/-- C2 (amended): topic-list extraction performs no per-element validation
at all: whenever the parsed value has a `trends` array — whatever the shape
of its elements — both services succeed and return every element (spread,
with the shared sources attached), one output record per input element. -/
theorem c2_amended (parsed : Except Unit Json) (sources : List GroundingSource)
    (draws : Nat → Nat) (j : Json) (xs : List Json)
    (hp : parsed = .ok j) (hx : trendsArray? j = some xs) :
    fetchTrendingTopicsResult parsed sources =
      .ok (xs.map fun t => { raw := t, sources := sources }) ∧
    fetchRailwayTopicsResult parsed sources draws =
      .ok (fyShuffle draws (xs.map fun t => { raw := t, sources := sources })) ∧
    (xs.map fun t => ({ raw := t, sources := sources } : TopicRecord)).length = xs.length := by
  subst hp
  have hb := trendsBody_ok j sources xs hx
  refine ⟨?_, ?_, by simp⟩
  · simp [fetchTrendingTopicsResult, hb, wrapCatch]
  · simp [fetchRailwayTopicsResult, hb, wrapCatch, Except.map]

/-- C2 witness: a well-formed one-element `trends` array. -/
theorem c2_witness :
    trendsArray? (Json.obj [("trends".data, Json.arr [Json.str ("a".data)])]) =
      some [Json.str ("a".data)] ∧
    fetchTrendingTopicsResult
        (.ok (Json.obj [("trends".data, Json.arr [Json.str ("a".data)])])) [] =
      .ok [{ raw := Json.str ("a".data), sources := [] }] :=
  ⟨rfl,
   (c2_amended _ [] (fun _ => 0) (Json.obj [("trends".data, Json.arr [Json.str ("a".data)])])
     [Json.str ("a".data)] rfl rfl).1⟩

/-- C6 counterexample: the text `null` parses as JSON and has no `trends`
array, yet the surfaced message is the wrapped property-access failure,
not the claimed shape-error message (and not the parse-error message
either) — the property read `parsed.trends` throws before the shape check
runs. -/
theorem c6_counterexample :
    fetchTrendingTopicsResult (.ok Json.null) [] =
      .error (newsTrendsPrefix ++ nullTrendsMsg) ∧
    newsTrendsPrefix ++ nullTrendsMsg ≠ newsTrendsPrefix ++ invalidTrendsMsg ∧
    newsTrendsPrefix ++ nullTrendsMsg ≠ parseFailureMsg :=
  ⟨rfl, by decide, by decide⟩

/-- C6 (amended): the two failure conditions stay distinct — a JSON syntax
failure surfaces the unwrapped parse-error message, while JSON that parses
to anything *other than `null`* without a `trends` array surfaces the
wrapped shape-error message; a parse result of `null` instead surfaces a
wrapped property-access (`TypeError`) message.  The three messages are
pairwise different and each condition yields exactly one of them, in both
topic services. -/
theorem c6_amended (sources : List GroundingSource) (draws : Nat → Nat) (j : Json)
    (hnull : j ≠ Json.null) (hx : trendsArray? j = none) :
    fetchTrendingTopicsResult (.error ()) sources = .error parseFailureMsg ∧
    fetchRailwayTopicsResult (.error ()) sources draws = .error parseFailureMsg ∧
    fetchTrendingTopicsResult (.ok j) sources =
      .error (newsTrendsPrefix ++ invalidTrendsMsg) ∧
    fetchRailwayTopicsResult (.ok j) sources draws =
      .error (railwayTrendsPrefix ++ invalidTrendsMsg) ∧
    fetchTrendingTopicsResult (.ok Json.null) sources =
      .error (newsTrendsPrefix ++ nullTrendsMsg) ∧
    fetchRailwayTopicsResult (.ok Json.null) sources draws =
      .error (railwayTrendsPrefix ++ nullTrendsMsg) ∧
    parseFailureMsg ≠ newsTrendsPrefix ++ invalidTrendsMsg ∧
    parseFailureMsg ≠ railwayTrendsPrefix ++ invalidTrendsMsg ∧
    nullTrendsMsg ≠ invalidTrendsMsg := by
  have hb := trendsBody_shape_err j sources hnull hx
  refine ⟨rfl, rfl, ?_, ?_, rfl, rfl, by decide, by decide, by decide⟩
  · simp [fetchTrendingTopicsResult, hb, wrapCatch]
  · simp [fetchRailwayTopicsResult, hb, wrapCatch, Except.map]

/-- C6 witness: a parsed boolean — not `null`, no `trends` array. -/
theorem c6_witness :
    Json.bool true ≠ Json.null ∧ trendsArray? (Json.bool true) = none ∧
    fetchTrendingTopicsResult (.ok (Json.bool true)) [] =
      .error (newsTrendsPrefix ++ invalidTrendsMsg) :=
  ⟨fun h => Json.noConfusion h, rfl,
   (c6_amended [] (fun _ => 0) (Json.bool true) (fun h => Json.noConfusion h) rfl).2.2.1⟩

/-- C8: whenever railway extraction succeeds with list `xs`, the returned
value is the Fisher-Yates shuffle of `xs` for the drawn randoms, and that
shuffle is a permutation of `xs` — the same multiset of topic records, each
record unchanged. -/
theorem c8_shuffle_permutation (parsed : Except Unit Json) (sources : List GroundingSource)
    (draws : Nat → Nat) (xs : List TopicRecord)
    (_hdraws : ∀ i, draws i ≤ i) (h : trendsBody parsed sources = .ok xs) :
    fetchRailwayTopicsResult parsed sources draws = .ok (fyShuffle draws xs) ∧
    List.Perm (fyShuffle draws xs) xs := by
  refine ⟨?_, fyShuffle_perm draws xs⟩
  simp [fetchRailwayTopicsResult, h, wrapCatch, Except.map]

/-- C8 witness: a three-element extraction with the all-zero draw
sequence. -/
theorem c8_witness :
    trendsBody
        (.ok (Json.obj [("trends".data,
          Json.arr [Json.str ("a".data), Json.str ("b".data), Json.str ("c".data)])])) [] =
      .ok ([{ raw := Json.str ("a".data), sources := [] },
            { raw := Json.str ("b".data), sources := [] },
            { raw := Json.str ("c".data), sources := [] }] : List TopicRecord) ∧
    (∀ i : Nat, (fun _ : Nat => 0) i ≤ i) ∧
    List.Perm
      (fyShuffle (fun _ => 0)
        ([{ raw := Json.str ("a".data), sources := [] },
          { raw := Json.str ("b".data), sources := [] },
          { raw := Json.str ("c".data), sources := [] }] : List TopicRecord))
      [{ raw := Json.str ("a".data), sources := [] },
       { raw := Json.str ("b".data), sources := [] },
       { raw := Json.str ("c".data), sources := [] }] :=
  ⟨rfl, fun i => Nat.zero_le i,
   (c8_shuffle_permutation
     (.ok (Json.obj [("trends".data,
       Json.arr [Json.str ("a".data), Json.str ("b".data), Json.str ("c".data)])])) []
     (fun _ => 0)
     [{ raw := Json.str ("a".data), sources := [] },
      { raw := Json.str ("b".data), sources := [] },
      { raw := Json.str ("c".data), sources := [] }]
     (fun i => Nat.zero_le i) rfl).2⟩

/-! ### Keyword-filter lemmas (for C5) -/

theorem jsIndexOf_append_self (pre : List Str) (x : Str) (xs : List Str)
    (hx : x ∉ pre) : jsIndexOf (pre ++ x :: xs) x = pre.length := by
  induction pre with
  | nil => simp [jsIndexOf, List.findIdx_cons]
  | cons p ps ih =>
    have hpx : (p == x) = false := by
      simp only [List.mem_cons, not_or] at hx
      exact beq_eq_false_iff_ne.mpr fun h => hx.1 h.symm
    have hps : x ∉ ps := by
      simp only [List.mem_cons, not_or] at hx
      exact hx.2
    simp [jsIndexOf, List.findIdx_cons, hpx] at ih ⊢
    exact ih hps

theorem jsIndexOf_lt_of_mem (pre : List Str) (l : List Str) (x : Str)
    (hx : x ∈ pre) : jsIndexOf (pre ++ l) x < pre.length := by
  induction pre with
  | nil => simp at hx
  | cons p ps ih =>
    by_cases hpx : p = x
    · simp [jsIndexOf, List.findIdx_cons, hpx]
    · have hxp : x ∈ ps := by
        rcases List.mem_cons.mp hx with h | h
        · exact absurd h.symm hpx
        · exact h
      have hb : (p == x) = false := beq_eq_false_iff_ne.mpr hpx
      have := ih hxp
      simp only [jsIndexOf, List.cons_append, List.findIdx_cons, hb, cond_false,
        List.length_cons] at this ⊢
      omega

theorem mem_dedupSeen {seen m : List Str} {k : Str} (h : k ∈ dedupSeen seen m) :
    k ∈ m := by
  induction m generalizing seen with
  | nil => simp [dedupSeen] at h
  | cons x xs ih =>
    rw [dedupSeen] at h
    by_cases hx : x ∈ seen
    · simp only [hx, if_true] at h
      exact List.mem_cons_of_mem x (ih h)
    · simp only [hx, if_false] at h
      rcases List.mem_cons.mp h with h | h
      · exact h ▸ List.mem_cons_self x xs
      · exact List.mem_cons_of_mem x (ih h)

theorem jsFilter_aux (l : List Str) : ∀ (pre seen : List Str),
    (∀ x : Str, x ≠ [] → (x ∈ pre ↔ x ∈ seen)) →
    ((List.enumFrom pre.length l).filter fun p =>
        p.2 ≠ ([] : Str) ∧ jsIndexOf (pre ++ l) p.2 = p.1).map Prod.snd =
      dedupSeen seen (l.filter fun y => y ≠ ([] : Str)) := by
  induction l with
  | nil => intro pre seen _; simp [dedupSeen]
  | cons x xs ih =>
    intro pre seen hinv
    have hpre1 : pre.length + 1 = (pre ++ [x]).length := by simp
    have happ : pre ++ x :: xs = (pre ++ [x]) ++ xs := List.append_cons pre x xs
    have hinv' : ∀ y : Str, y ≠ [] → (y ∈ pre ++ [x] ↔ (y ∈ pre ∨ y = x)) := by
      intro y _; simp [List.mem_append]
    by_cases hx0 : x = ([] : Str)
    · subst hx0
      have hnext : ∀ y : Str, y ≠ [] → (y ∈ pre ++ [([] : Str)] ↔ y ∈ seen) := by
        intro y hy
        rw [hinv' y hy]
        constructor
        · rintro (h | h)
          · exact (hinv y hy).mp h
          · exact absurd h hy
        · intro h; exact Or.inl ((hinv y hy).mpr h)
      have := ih (pre ++ [([] : Str)]) seen hnext
      rw [← hpre1, ← happ] at this
      simpa [List.enumFrom, List.filter_cons] using this
    · by_cases hxp : x ∈ pre
      · have hlt := jsIndexOf_lt_of_mem pre (x :: xs) x hxp
        have hcond : ¬ jsIndexOf (pre ++ x :: xs) x = pre.length := by omega
        have hseen : x ∈ seen := (hinv x hx0).mp hxp
        have hnext : ∀ y : Str, y ≠ [] → (y ∈ pre ++ [x] ↔ y ∈ seen) := by
          intro y hy
          rw [hinv' y hy]
          constructor
          · rintro (h | h)
            · exact (hinv y hy).mp h
            · exact h ▸ hseen
          · intro h; exact Or.inl ((hinv y hy).mpr h)
        have := ih (pre ++ [x]) seen hnext
        rw [← hpre1, ← happ] at this
        simpa [List.enumFrom, List.filter_cons, hcond, hx0, dedupSeen, hseen] using this
      · have hidx := jsIndexOf_append_self pre x xs hxp
        have hseen : x ∉ seen := fun h => hxp ((hinv x hx0).mpr h)
        have hnext : ∀ y : Str, y ≠ [] → (y ∈ pre ++ [x] ↔ y ∈ x :: seen) := by
          intro y hy
          rw [hinv' y hy]
          constructor
          · rintro (h | h)
            · exact List.mem_cons_of_mem x ((hinv y hy).mp h)
            · exact h ▸ List.mem_cons_self x seen
          · intro h
            rcases List.mem_cons.mp h with h | h
            · exact Or.inr h
            · exact Or.inl ((hinv y hy).mpr h)
        have := ih (pre ++ [x]) (x :: seen) hnext
        rw [← hpre1, ← happ] at this
        simpa [List.enumFrom, List.filter_cons, hidx, hx0, dedupSeen, hseen] using this

theorem jsKeywordFilter_eq_dedup (mapped : List Str) :
    jsKeywordFilter mapped = dedupSeen [] (mapped.filter fun y => y ≠ ([] : Str)) := by
  have := jsFilter_aux mapped [] [] (by intro x _; simp)
  simpa [jsKeywordFilter, List.enum] using this

/-- C5: article extraction prefers `articleHtml` over `article_html` and
`seoKeywords` over `seo_keywords` (camelCase wins when both are present),
coerces an absent or non-array keyword field to the empty list, trims each
entry, drops non-string and empty entries, and deduplicates preserving
first-occurrence order (the `indexOf` filter equals the accumulator-style
first-occurrence deduplication); both spec examples produce
`seoKeywords = ["a", "b"]`. -/
theorem c5_article_extraction (parsed : Json) (s1 s2 : Str) (a1 a2 : List Json)
    (hh1 : parsed.lookup ("articleHtml".data) = some (.str s1))
    (_hh2 : parsed.lookup ("article_html".data) = some (.str s2))
    (hk1 : parsed.lookup ("seoKeywords".data) = some (.arr a1))
    (_hk2 : parsed.lookup ("seo_keywords".data) = some (.arr a2)) :
    selectRawHtml parsed = s1 ∧
    selectRawKeywords parsed = a1 ∧
    (∀ raw : List Json, jsKeywordFilter (raw.map coerceKeyword) =
      dedupSeen [] ((raw.map coerceKeyword).filter fun y => y ≠ ([] : Str))) ∧
    (∀ q : Json, (∀ xs, q.lookup ("seoKeywords".data) ≠ some (.arr xs)) →
      (∀ xs, q.lookup ("seo_keywords".data) ≠ some (.arr xs)) →
      selectSeoKeywords q = []) ∧
    (∀ q : Json, ∀ k ∈ selectSeoKeywords q, k ≠ [] ∧ jsTrim k = k) ∧
    selectRawHtml (Json.obj [("articleHtml".data, .str ("<p>x</p>".data)),
        ("seoKeywords".data, .arr [.str ("a".data), .str ("b".data), .str ("a".data)])]) =
      "<p>x</p>".data ∧
    selectSeoKeywords (Json.obj [("articleHtml".data, .str ("<p>x</p>".data)),
        ("seoKeywords".data, .arr [.str ("a".data), .str ("b".data), .str ("a".data)])]) =
      ["a".data, "b".data] ∧
    selectRawHtml (Json.obj [("article_html".data, .str ("<p>x</p>".data)),
        ("seo_keywords".data, .arr [.str ("a".data), .str ("b".data)])]) =
      "<p>x</p>".data ∧
    selectSeoKeywords (Json.obj [("article_html".data, .str ("<p>x</p>".data)),
        ("seo_keywords".data, .arr [.str ("a".data), .str ("b".data)])]) =
      ["a".data, "b".data] := by
  refine ⟨by simp [selectRawHtml, hh1], by simp [selectRawKeywords, hk1],
    fun raw => jsKeywordFilter_eq_dedup (raw.map coerceKeyword), ?_, ?_,
    by decide, by decide, by decide, by decide⟩
  · intro q h1 h2
    have hsel : selectRawKeywords q = [] := by
      unfold selectRawKeywords
      cases hq1 : q.lookup ("seoKeywords".data) with
      | some v₁ =>
        cases v₁ <;>
          first
            | exact absurd hq1 (h1 _)
            | (cases hq2 : q.lookup ("seo_keywords".data) with
               | some v₂ => cases v₂ <;> first | exact absurd hq2 (h2 _) | rfl
               | none => rfl)
      | none =>
        cases hq2 : q.lookup ("seo_keywords".data) with
        | some v₂ => cases v₂ <;> first | exact absurd hq2 (h2 _) | rfl
        | none => rfl
    simp [selectSeoKeywords, hsel, jsKeywordFilter, List.enum]
  · intro q k hk
    rw [selectSeoKeywords, jsKeywordFilter_eq_dedup] at hk
    have h2 := List.mem_filter.mp (mem_dedupSeen hk)
    have hne : k ≠ [] := by simpa using h2.2
    obtain ⟨j, _, hj⟩ := List.mem_map.mp h2.1
    subst hj
    refine ⟨hne, ?_⟩
    cases j <;>
      first
        | exact absurd rfl hne
        | simpa [coerceKeyword] using jsTrim_idem _

/-- C5 witness: a parsed object carrying all four keys. -/
theorem c5_witness :
    (Json.obj [("articleHtml".data, Json.str ("A".data)),
        ("article_html".data, Json.str ("B".data)),
        ("seoKeywords".data, Json.arr []),
        ("seo_keywords".data, Json.arr [Json.str ("z".data)])]).lookup
      ("articleHtml".data) = some (.str ("A".data)) ∧
    selectRawHtml (Json.obj [("articleHtml".data, Json.str ("A".data)),
        ("article_html".data, Json.str ("B".data)),
        ("seoKeywords".data, Json.arr []),
        ("seo_keywords".data, Json.arr [Json.str ("z".data)])]) = "A".data ∧
    selectRawKeywords (Json.obj [("articleHtml".data, Json.str ("A".data)),
        ("article_html".data, Json.str ("B".data)),
        ("seoKeywords".data, Json.arr []),
        ("seo_keywords".data, Json.arr [Json.str ("z".data)])]) = [] :=
  ⟨rfl,
   (c5_article_extraction
     (Json.obj [("articleHtml".data, Json.str ("A".data)),
        ("article_html".data, Json.str ("B".data)),
        ("seoKeywords".data, Json.arr []),
        ("seo_keywords".data, Json.arr [Json.str ("z".data)])])
     ("A".data) ("B".data) [] [Json.str ("z".data)] rfl rfl rfl rfl).1,
   (c5_article_extraction
     (Json.obj [("articleHtml".data, Json.str ("A".data)),
        ("article_html".data, Json.str ("B".data)),
        ("seoKeywords".data, Json.arr []),
        ("seo_keywords".data, Json.arr [Json.str ("z".data)])])
     ("A".data) ("B".data) [] [Json.str ("z".data)] rfl rfl rfl rfl).2.1⟩

/-! ### Fence-matching lemmas (for C1) -/

theorem ciEq_length : ∀ {a b : Str}, ciEq a b = true → a.length = b.length
  | [], [], _ => rfl
  | a :: as, b :: bs, h => by
    simp only [ciEq, Bool.and_eq_true] at h
    simp [ciEq_length h.2]
  | [], _ :: _, h => by simp [ciEq] at h
  | _ :: _, [], h => by simp [ciEq] at h

theorem ciEq_ciStartsWith : ∀ {a b : Str} (x : Str), ciEq a b = true →
    ciStartsWith b (a ++ x) = true
  | [], [], _, _ => rfl
  | a :: as, b :: bs, x, h => by
    simp only [ciEq, Bool.and_eq_true] at h
    have hlow : lowEq b a = true := by
      simp only [lowEq, decide_eq_true_eq] at h ⊢
      exact h.1.symm
    simp [ciStartsWith, hlow, ciEq_ciStartsWith x h.2]
  | [], _ :: _, _, h => by simp [ciEq] at h
  | _ :: _, [], _, h => by simp [ciEq] at h

theorem hasTriple_cons (c : Char) (t : Str) (h : hasTriple t = true) :
    hasTriple (c :: t) = true := by
  cases t with
  | nil => simp [hasTriple, splitAtTriple] at h
  | cons c1 t1 =>
    cases t1 with
    | nil => simp [hasTriple, splitAtTriple] at h
    | cons c2 t2 =>
      cases t2 with
      | nil => simp [hasTriple, splitAtTriple] at h
      | cons c3 t3 =>
        rw [hasTriple, splitAtTriple]
        split
        · simp
        · simpa [hasTriple] using h

theorem hasTriple_cons_false (c : Char) (t : Str) (h : hasTriple (c :: t) = false) :
    hasTriple t = false := by
  cases ht : hasTriple t with
  | false => rfl
  | true => rw [hasTriple_cons c t ht] at h; exact absurd h (by simp)

theorem splitAtTriple_append (body post : Str)
    (h : hasTriple (body ++ [btick, btick]) = false) :
    splitAtTriple (body ++ btick :: btick :: btick :: post) = some (body, post) := by
  induction body with
  | nil => simp [splitAtTriple]
  | cons c bs ih =>
    have hbs : hasTriple (bs ++ [btick, btick]) = false :=
      hasTriple_cons_false c _ h
    cases bs with
    | nil =>
      have hc : ¬ c = btick := by
        intro e; subst e
        exact absurd h (by simp [hasTriple, splitAtTriple])
      show splitAtTriple (c :: btick :: btick :: btick :: post) = some ([c], post)
      rw [splitAtTriple, if_neg (by simp [hc])]
      simp [splitAtTriple]
    | cons d bs2 =>
      cases bs2 with
      | nil =>
        have hcd : ¬ (c = btick ∧ d = btick ∧ btick = btick) := by
          rintro ⟨rfl, rfl, -⟩
          exact absurd h (by simp [hasTriple, splitAtTriple])
        show splitAtTriple (c :: d :: btick :: btick :: btick :: post) = some ([c, d], post)
        rw [splitAtTriple, if_neg hcd]
        rw [show splitAtTriple (d :: btick :: btick :: (btick :: post)) =
              some ([d], post) from ih hbs]
        rfl
      | cons e bs3 =>
        have hcd : ¬ (c = btick ∧ d = btick ∧ e = btick) := by
          rintro ⟨rfl, rfl, rfl⟩
          exact absurd h (by simp [hasTriple, splitAtTriple])
        show splitAtTriple (c :: d :: e :: (bs3 ++ btick :: btick :: btick :: post)) =
          some (c :: d :: e :: bs3, post)
        rw [splitAtTriple, if_neg hcd]
        rw [show splitAtTriple (d :: e :: (bs3 ++ btick :: btick :: btick :: post)) =
              some (d :: e :: bs3, post) from ih hbs]
        rfl

theorem tryFenceAt_eq_none (tag : Str) (w : Str)
    (h : ¬ ∃ rest, w = btick :: btick :: btick :: rest) : tryFenceAt tag w = none := by
  match w with
  | [] => rfl
  | [c0] => rfl
  | [c0, c1] => rfl
  | c0 :: c1 :: c2 :: rest =>
    rw [tryFenceAt]
    rw [if_neg]
    rintro ⟨rfl, rfl, rfl⟩
    exact h ⟨rest, rfl⟩

theorem hasTriple_of_starts (c : Char) (pre' s rest' : Str)
    (heq : c :: (pre' ++ s) = btick :: btick :: btick :: rest') :
    hasTriple ((c :: pre') ++ [btick, btick]) = true := by
  obtain ⟨rfl, h2⟩ := List.cons.inj heq
  cases pre' with
  | nil => simp [hasTriple, splitAtTriple]
  | cons d ps =>
    rw [List.cons_append] at h2
    obtain ⟨rfl, h3⟩ := List.cons.inj h2
    cases ps with
    | nil => simp [hasTriple, splitAtTriple]
    | cons e ps2 =>
      rw [List.cons_append] at h3
      obtain ⟨rfl, -⟩ := List.cons.inj h3
      simp [hasTriple, splitAtTriple]

theorem fenceScan_prefix (tag pre s g : Str)
    (hpre : hasTriple (pre ++ [btick, btick]) = false)
    (hs : ∃ rest, s = btick :: btick :: btick :: rest)
    (h : tryFenceAt tag s = some g) :
    fenceScan tag (pre ++ s) = some g := by
  induction pre with
  | nil =>
    obtain ⟨rest, rfl⟩ := hs
    simp [fenceScan, h]
  | cons c pre' ih =>
    have hfa : tryFenceAt tag (c :: (pre' ++ s)) = none := by
      apply tryFenceAt_eq_none
      rintro ⟨rest', heq⟩
      exact absurd (hasTriple_of_starts c pre' s rest' heq) (by simpa using hpre)
    show fenceScan tag (c :: (pre' ++ s)) = some g
    simp [fenceScan, hfa, ih (hasTriple_cons_false c _ hpre)]

theorem fenceScan_none (tag s : Str) (h : hasTriple s = false) :
    fenceScan tag s = none := by
  induction s with
  | nil => rfl
  | cons c rest ih =>
    have hfa : tryFenceAt tag (c :: rest) = none := by
      apply tryFenceAt_eq_none
      rintro ⟨r, heq⟩
      rw [heq] at h
      exact absurd h (by simp [hasTriple, splitAtTriple])
    simp [fenceScan, hfa, ih (hasTriple_cons_false c rest h)]

theorem tryFenceAt_fence (tag tag' body post : Str)
    (hbody : hasTriple (body ++ [btick, btick]) = false)
    (htag : ciEq tag' tag = true ∨
      (tag' = [] ∧ ciStartsWith tag (body ++ btick :: btick :: btick :: post) = false)) :
    tryFenceAt tag
        (btick :: btick :: btick :: (tag' ++ body ++ btick :: btick :: btick :: post)) =
      some body := by
  rw [tryFenceAt, if_pos ⟨rfl, rfl, rfl⟩]
  rcases htag with hci | ⟨rfl, hcs⟩
  · have h1 : ciStartsWith tag (tag' ++ (body ++ btick :: btick :: btick :: post)) = true :=
      ciEq_ciStartsWith _ hci
    rw [List.append_assoc]
    rw [if_pos h1]
    rw [← ciEq_length hci, List.drop_left]
    rw [splitAtTriple_append body post hbody]
  · simp only [List.nil_append] at hcs ⊢
    rw [if_neg (by simp [hcs])]
    rw [splitAtTriple_append body post hbody]
    rfl

/-- C1 counterexample: `stripCodeFences` does not recognise the `json` tag —
on a `json`-tagged fence the tag is kept as part of the returned content
instead of being stripped. -/
theorem c1_counterexample :
    stripCodeFences ("```json X```".data) = "json X".data ∧
    stripCodeFences ("```json X```".data) ≠ "X".data :=
  ⟨by decide, by decide⟩

/-- C1 (amended): each fence stripper recognises only its own tag —
`stripCodeFences` an optional case-insensitive `html`, `extractJsonPayload`
an optional case-insensitive `json`.  For a well-formed first fence pair
(no stray triple backticks before or inside the block) whose tag is the
recognised one (any letter case) or absent, the function returns the
trimmed content captured after the recognised tag, provided that capture is
non-empty; an unrecognised tag stays part of the content.  An input with no
fence marker is returned trimmed, and the empty input yields the empty
string. -/
theorem c1_amended (pre tag' body post : Str)
    (hpre : hasTriple (pre ++ [btick, btick]) = false)
    (hbody : hasTriple (body ++ [btick, btick]) = false)
    (hbody0 : body ≠ []) :
    (ciEq tag' htmlTagChars = true ∨
      (tag' = [] ∧
        ciStartsWith htmlTagChars (body ++ btick :: btick :: btick :: post) = false) →
      stripCodeFences
          (pre ++ btick :: btick :: btick ::
            (tag' ++ body ++ btick :: btick :: btick :: post)) = jsTrim body) ∧
    (ciEq tag' jsonTagChars = true ∨
      (tag' = [] ∧
        ciStartsWith jsonTagChars (body ++ btick :: btick :: btick :: post) = false) →
      extractJsonPayload
          (pre ++ btick :: btick :: btick ::
            (tag' ++ body ++ btick :: btick :: btick :: post)) = jsTrim body) ∧
    stripCodeFences [] = [] ∧ extractJsonPayload [] = [] ∧
    (∀ s : Str, hasTriple s = false →
      stripCodeFences s = jsTrim s ∧ extractJsonPayload s = jsTrim s) := by
  have hne : pre ++ btick :: btick :: btick ::
      (tag' ++ body ++ btick :: btick :: btick :: post) ≠ [] := by simp
  refine ⟨?_, ?_, rfl, rfl, ?_⟩
  · intro htag
    have hscan := fenceScan_prefix htmlTagChars pre _ body hpre ⟨_, rfl⟩
      (tryFenceAt_fence htmlTagChars tag' body post hbody htag)
    rw [stripCodeFences, if_neg hne, hscan]
    simp [hbody0]
  · intro htag
    have hscan := fenceScan_prefix jsonTagChars pre _ body hpre ⟨_, rfl⟩
      (tryFenceAt_fence jsonTagChars tag' body post hbody htag)
    rw [extractJsonPayload, if_neg hne, hscan]
    simp [hbody0]
  · intro s hs
    by_cases h0 : s = []
    · subst h0
      exact ⟨rfl, rfl⟩
    · exact ⟨by simp [stripCodeFences, h0, fenceScan_none htmlTagChars s hs],
        by simp [extractJsonPayload, h0, fenceScan_none jsonTagChars s hs]⟩

/-- C1 witness: a mixed-case `html` tag with text around the fence. -/
theorem c1_witness :
    hasTriple ("Intro: ".data ++ [btick, btick]) = false ∧
    hasTriple ("<p>hi</p>".data ++ [btick, btick]) = false ∧
    "<p>hi</p>".data ≠ ([] : Str) ∧
    stripCodeFences ("Intro: ".data ++ btick :: btick :: btick ::
        ("HtMl".data ++ "<p>hi</p>".data ++ btick :: btick :: btick :: " done".data)) =
      jsTrim ("<p>hi</p>".data) :=
  ⟨by decide, by decide, by decide,
   (c1_amended ("Intro: ".data) ("HtMl".data) ("<p>hi</p>".data) (" done".data)
     (by decide) (by decide) (by decide)).1 (Or.inl (by decide))⟩

/-! ### No-match lemmas for the sanitizer (C9) -/

theorem noMatchB_iff (matchAt : Str → Option Nat) (s : Str) :
    noMatchB matchAt s = true ↔ NoMatch matchAt s := by
  simp [noMatchB, NoMatch, List.all_eq_true, List.mem_tails, Option.isNone_iff_eq_none]

theorem replaceAux_no_match (m : Str → Option Nat) (repl : Str) :
    ∀ (fuel : Nat) (s : Str), NoMatch m s → replaceAux m repl fuel s = s
  | 0, _, _ => rfl
  | _ + 1, [], _ => rfl
  | fuel + 1, c :: rest, h => by
    have hc : m (c :: rest) = none := h _ (List.suffix_refl _)
    have hr : NoMatch m rest := fun t ht => h t (ht.trans (List.suffix_cons c rest))
    simp [replaceAux, hc, replaceAux_no_match m repl fuel rest hr]

theorem replaceMatches_no_match (m : Str → Option Nat) (repl : Str) (s : Str)
    (h : NoMatch m s) : replaceMatches m repl s = s :=
  replaceAux_no_match m repl s.length s h

theorem scanToGt_take : ∀ (w : Str) (c n : Nat),
    scanToGt (w.take c) = some n → scanToGt w = some n
  | [], c, n, h => by simp [scanToGt] at h
  | x :: xs, 0, n, h => by simp [scanToGt] at h
  | x :: xs, c + 1, n, h => by
    rw [List.take_succ_cons] at h
    rw [scanToGt] at h ⊢
    by_cases hx : x = '>'
    · simpa [hx] using h
    · simp only [hx, if_false, Option.map_eq_some'] at h ⊢
      obtain ⟨k, hk, rfl⟩ := h
      exact ⟨k, scanToGt_take xs c k hk, rfl⟩

theorem ciStartsWith_take (pat : Str) : ∀ (w : Str) (c : Nat),
    ciStartsWith pat (w.take c) = true → ciStartsWith pat w = true := by
  induction pat with
  | nil => intro w c _; rfl
  | cons p ps ih =>
    intro w c h
    cases w with
    | nil => simpa using h
    | cons x xs =>
      cases c with
      | zero => simp [ciStartsWith] at h
      | succ c' =>
        rw [List.take_succ_cons] at h
        rw [ciStartsWith, Bool.and_eq_true] at h ⊢
        exact ⟨h.1, ih xs c' h.2⟩

theorem tagAfterSlash_take (name : Str) : ∀ (w : Str) (c n : Nat),
    tagAfterSlash name (w.take c) = some n → tagAfterSlash name w = some n := by
  intro w
  induction w with
  | nil => intro c n h; simp [tagAfterSlash] at h
  | cons x xs ih =>
    intro c n h
    cases c with
    | zero => simp [tagAfterSlash] at h
    | succ c' =>
      rw [List.take_succ_cons] at h
      rw [tagAfterSlash] at h ⊢
      by_cases hx : isJsWs x = true
      · rw [if_pos hx] at h ⊢
        rw [Option.map_eq_some'] at h ⊢
        obtain ⟨k, hk, rfl⟩ := h
        exact ⟨k, ih c' k hk, rfl⟩
      · rw [if_neg hx] at h ⊢
        by_cases hcs : ciStartsWith name (x :: xs) = true
        · rw [if_pos hcs]
          have hcs' : ciStartsWith name (x :: List.take c' xs) = true := by
            by_contra hne
            rw [if_neg hne] at h
            exact Option.noConfusion h
          rw [if_pos hcs'] at h
          rw [Option.map_eq_some'] at h ⊢
          obtain ⟨k, hk, rfl⟩ := h
          refine ⟨k, ?_, rfl⟩
          have heq : (x :: List.take c' xs).drop name.length =
              ((x :: xs).drop name.length).take (c' + 1 - name.length) := by
            rw [← List.take_succ_cons, List.drop_take]
          rw [heq] at hk
          exact scanToGt_take _ _ k hk
        · rw [if_neg hcs]
          have hne' : ¬ ciStartsWith name (x :: List.take c' xs) = true := by
            intro hcc
            exact hcs (ciStartsWith_take name (x :: xs) (c' + 1)
              (by rwa [List.take_succ_cons]))
          rw [if_neg hne'] at h
          exact h

theorem tagMatchAt_take (name : Str) : ∀ (w : Str) (c n : Nat),
    tagMatchAt name (w.take c) = some n → tagMatchAt name w = some n := by
  intro w c n h
  match w, c with
  | [], _ => simp [tagMatchAt] at h
  | _ :: _, 0 => simp [tagMatchAt] at h
  | [a], c + 1 => simp [tagMatchAt, List.take_succ_cons] at h
  | a :: b :: w2, 1 => simp [tagMatchAt, List.take_succ_cons] at h
  | a :: b :: w2, c + 2 =>
    rw [List.take_succ_cons, List.take_succ_cons] at h
    rw [tagMatchAt] at h ⊢
    by_cases ha : a = '<'
    · rw [if_pos ha] at h ⊢
      by_cases hb : b = '/'
      · rw [if_pos hb] at h ⊢
        rw [Option.map_eq_some'] at h ⊢
        obtain ⟨k, hk, rfl⟩ := h
        exact ⟨k, tagAfterSlash_take name w2 c k hk, rfl⟩
      · rw [if_neg hb] at h ⊢
        rw [Option.map_eq_some'] at h ⊢
        obtain ⟨k, hk, rfl⟩ := h
        refine ⟨k, ?_, rfl⟩
        exact tagAfterSlash_take name (b :: w2) (c + 1) k (by rwa [List.take_succ_cons])
    · rw [if_neg ha] at h
      exact Option.noConfusion h

theorem doctypeMatchAt_take : ∀ (w : Str) (c n : Nat),
    doctypeMatchAt (w.take c) = some n → doctypeMatchAt w = some n := by
  intro w c n h
  match w, c with
  | [], _ => simp [doctypeMatchAt] at h
  | _ :: _, 0 => simp [doctypeMatchAt] at h
  | [a], c + 1 => simp [doctypeMatchAt, List.take_succ_cons] at h
  | a :: b :: w2, 1 => simp [doctypeMatchAt, List.take_succ_cons] at h
  | a :: b :: w2, c + 2 =>
    rw [List.take_succ_cons, List.take_succ_cons] at h
    rw [doctypeMatchAt] at h ⊢
    by_cases hcond : a = '<' ∧ b = '!' ∧ ciStartsWith ("doctype".data) (List.take c w2) = true
    · obtain ⟨ha, hb, hci⟩ := hcond
      rw [if_pos ⟨ha, hb, hci⟩] at h
      rw [if_pos ⟨ha, hb, ciStartsWith_take _ w2 c hci⟩]
      rw [Option.map_eq_some'] at h ⊢
      obtain ⟨k, hk, rfl⟩ := h
      refine ⟨k, ?_, rfl⟩
      rw [List.drop_take] at hk
      exact scanToGt_take _ _ k hk
    · rw [if_neg hcond] at h
      exact Option.noConfusion h

theorem NoMatch_suffix (m : Str → Option Nat) {s t : Str} (h : NoMatch m s)
    (hst : t <:+ s) : NoMatch m t := fun u hu => h u (hu.trans hst)

theorem NoMatch_take (m : Str → Option Nat)
    (htake : ∀ (w : Str) (c n : Nat), m (w.take c) = some n → m w = some n)
    {s : Str} (h : NoMatch m s) (c : Nat) : NoMatch m (s.take c) := by
  intro t ht
  obtain ⟨u, hu⟩ := ht
  have ht' : t = (s.take c).drop u.length := by
    rw [← hu, List.drop_left]
  rw [ht', List.drop_take]
  cases hm : m ((s.drop u.length).take (c - u.length)) with
  | none => rfl
  | some n =>
    have h2 := htake _ _ _ hm
    have h3 := h (s.drop u.length) (List.drop_suffix u.length s)
    rw [h3] at h2
    exact Option.noConfusion h2

theorem NoMatch_jsTrim (m : Str → Option Nat)
    (htake : ∀ (w : Str) (c n : Nat), m (w.take c) = some n → m w = some n)
    {s : Str} (h : NoMatch m s) : NoMatch m (jsTrim s) := by
  have h1 : NoMatch m (trimHead s) := NoMatch_suffix m h (List.dropWhile_suffix _)
  obtain ⟨u, hu⟩ := trimTail_prefix_ex (trimHead s)
  have h2 : jsTrim s = (trimHead s).take (trimTail (trimHead s)).length :=
    List.prefix_iff_eq_take.mp ⟨u, hu⟩
  rw [h2]
  exact NoMatch_take m htake h1 _

theorem sanitize_eq_trim (x : Str)
    (hd : NoMatch doctypeMatchAt x)
    (h1 : NoMatch (tagMatchAt ("html".data)) x)
    (h2 : NoMatch (tagMatchAt ("body".data)) x)
    (h3 : NoMatch (tagMatchAt ("head".data)) x)
    (h4 : NoMatch (tagMatchAt ("meta".data)) x)
    (h5 : NoMatch (tagMatchAt ("title".data)) x) :
    sanitizeArticleHtml x = jsTrim x := by
  unfold sanitizeArticleHtml
  rw [replaceMatches_no_match _ _ _ hd]
  dsimp only
  rw [replaceMatches_no_match _ _ _ (NoMatch_jsTrim _ (tagMatchAt_take _) h1)]
  rw [replaceMatches_no_match _ _ _ (NoMatch_jsTrim _ (tagMatchAt_take _) h2)]
  rw [replaceMatches_no_match _ _ _ (NoMatch_jsTrim _ (tagMatchAt_take _) h3)]
  rw [replaceMatches_no_match _ _ _ (NoMatch_jsTrim _ (tagMatchAt_take _) h4)]
  rw [replaceMatches_no_match _ _ _ (NoMatch_jsTrim _ (tagMatchAt_take _) h5)]
  exact jsTrim_idem x

/-- C9: `sanitizeArticleHtml` is idempotent on wrapper-free fragments — for
every string with no DOCTYPE declaration and no `html`, `head`, `body`,
`meta`, `title`, `script`, `style` or `link` tag (no substring matched by
the corresponding removal patterns), sanitizing twice equals sanitizing
once.  On such fragments the sanitizer is exactly `trim`, which is
idempotent. -/
theorem c9_sanitize_idempotent (x : Str)
    (hd : noMatchB doctypeMatchAt x = true)
    (hhtml : noMatchB (tagMatchAt ("html".data)) x = true)
    (hbody : noMatchB (tagMatchAt ("body".data)) x = true)
    (hhead : noMatchB (tagMatchAt ("head".data)) x = true)
    (hmeta : noMatchB (tagMatchAt ("meta".data)) x = true)
    (htitle : noMatchB (tagMatchAt ("title".data)) x = true)
    (_hscript : noMatchB (tagMatchAt ("script".data)) x = true)
    (_hstyle : noMatchB (tagMatchAt ("style".data)) x = true)
    (_hlink : noMatchB (tagMatchAt ("link".data)) x = true) :
    sanitizeArticleHtml (sanitizeArticleHtml x) = sanitizeArticleHtml x := by
  have hd' := (noMatchB_iff _ _).mp hd
  have h1' := (noMatchB_iff _ _).mp hhtml
  have h2' := (noMatchB_iff _ _).mp hbody
  have h3' := (noMatchB_iff _ _).mp hhead
  have h4' := (noMatchB_iff _ _).mp hmeta
  have h5' := (noMatchB_iff _ _).mp htitle
  have e1 : sanitizeArticleHtml x = jsTrim x := sanitize_eq_trim x hd' h1' h2' h3' h4' h5'
  have e2 : sanitizeArticleHtml (jsTrim x) = jsTrim (jsTrim x) :=
    sanitize_eq_trim (jsTrim x)
      (NoMatch_jsTrim _ doctypeMatchAt_take hd')
      (NoMatch_jsTrim _ (tagMatchAt_take _) h1')
      (NoMatch_jsTrim _ (tagMatchAt_take _) h2')
      (NoMatch_jsTrim _ (tagMatchAt_take _) h3')
      (NoMatch_jsTrim _ (tagMatchAt_take _) h4')
      (NoMatch_jsTrim _ (tagMatchAt_take _) h5')
  rw [e1, e2, jsTrim_idem]

/-- C9 witness: a plain paragraph fragment. -/
theorem c9_witness :
    noMatchB doctypeMatchAt (" <p>Hello <strong>world</strong></p> ".data) = true ∧
    noMatchB (tagMatchAt ("html".data)) (" <p>Hello <strong>world</strong></p> ".data) = true ∧
    sanitizeArticleHtml (sanitizeArticleHtml (" <p>Hello <strong>world</strong></p> ".data)) =
      sanitizeArticleHtml (" <p>Hello <strong>world</strong></p> ".data) :=
  ⟨by decide, by decide,
   c9_sanitize_idempotent (" <p>Hello <strong>world</strong></p> ".data)
     (by decide) (by decide) (by decide) (by decide) (by decide) (by decide)
     (by decide) (by decide) (by decide)⟩

/-! ### Whitespace-collapsing lemmas (for C4) -/

theorem replaceAux_congr (m : Str → Option Nat) (repl : Str) :
    ∀ (f1 : Nat) (f2 : Nat) (s : Str), s.length ≤ f1 → s.length ≤ f2 →
      replaceAux m repl f1 s = replaceAux m repl f2 s := by
  intro f1
  induction f1 with
  | zero =>
    intro f2 s h1 _
    have : s = [] := List.length_eq_zero.mp (Nat.le_zero.mp h1)
    subst this
    cases f2 <;> rfl
  | succ f1' ih =>
    intro f2 s h1 h2
    cases s with
    | nil => cases f2 <;> rfl
    | cons c rest =>
      cases f2 with
      | zero => simp at h2
      | succ f2' =>
        rw [replaceAux, replaceAux]
        cases hm : m (c :: rest) with
        | none =>
          show c :: replaceAux m repl f1' rest = c :: replaceAux m repl f2' rest
          rw [ih f2' rest (by simpa using h1) (by simpa using h2)]
        | some n =>
          cases n with
          | zero =>
            show c :: replaceAux m repl f1' rest = c :: replaceAux m repl f2' rest
            rw [ih f2' rest (by simpa using h1) (by simpa using h2)]
          | succ n' =>
            have hd1 : ((c :: rest).drop (n' + 1)).length ≤ f1' := by
              simp only [List.length_drop, List.length_cons]
              simp only [List.length_cons] at h1
              omega
            have hd2 : ((c :: rest).drop (n' + 1)).length ≤ f2' := by
              simp only [List.length_drop, List.length_cons]
              simp only [List.length_cons] at h2
              omega
            show repl ++ replaceAux m repl f1' ((c :: rest).drop (n' + 1)) =
              repl ++ replaceAux m repl f2' ((c :: rest).drop (n' + 1))
            rw [ih f2' _ hd1 hd2]

theorem drop_takeWhile_length (p : Char → Bool) (l : Str) :
    l.drop (l.takeWhile p).length = l.dropWhile p := by
  induction l with
  | nil => rfl
  | cons c r ih =>
    rw [List.takeWhile_cons, List.dropWhile_cons]
    by_cases hc : p c
    · simp [hc, ih, List.drop_succ_cons]
    · simp [hc]

theorem collapseWs_cons (c : Char) (r : Str) :
    collapseWs (c :: r) =
      if isJsWs c then ' ' :: collapseWs (r.dropWhile isJsWs) else c :: collapseWs r := by
  show replaceAux wsRunAt [' '] (c :: r).length (c :: r) = _
  rw [List.length_cons, replaceAux]
  by_cases hc : isJsWs c = true
  · have hm : wsRunAt (c :: r) = some ((r.takeWhile isJsWs).length + 1) := by
      simp [wsRunAt, hc]
    rw [hm, if_pos hc]
    have hdrop : (c :: r).drop ((r.takeWhile isJsWs).length + 1) = r.dropWhile isJsWs := by
      rw [List.drop_succ_cons, drop_takeWhile_length]
    show [' '] ++ replaceAux wsRunAt [' '] r.length ((c :: r).drop ((r.takeWhile isJsWs).length + 1)) =
      ' ' :: collapseWs (r.dropWhile isJsWs)
    rw [hdrop]
    rw [replaceAux_congr wsRunAt [' '] r.length (r.dropWhile isJsWs).length (r.dropWhile isJsWs)
      (by simpa using (List.dropWhile_suffix isJsWs (l := r)).length_le) (le_refl _)]
    rfl
  · have hm : wsRunAt (c :: r) = none := by simp [wsRunAt, hc]
    rw [hm, if_neg hc]
    show c :: replaceAux wsRunAt [' '] r.length r = c :: collapseWs r
    rfl

theorem goodWs_nil : goodWs [] := ⟨List.chain'_nil, by simp⟩

theorem goodWs_tail {c : Char} {r : Str} (h : goodWs (c :: r)) : goodWs r :=
  ⟨h.1.tail, fun d hd hw => h.2 d (List.mem_cons_of_mem c hd) hw⟩

theorem head_collapseWs_not_ws (t : Str)
    (ht : ∀ d, t.head? = some d → ¬ isJsWs d = true) :
    ∀ y, (collapseWs t).head? = some y → ¬ isJsWs y = true := by
  cases t with
  | nil => intro y hy; simp [collapseWs, replaceMatches, replaceAux] at hy
  | cons d t' =>
    intro y hy
    have hd := ht d rfl
    rw [collapseWs_cons, if_neg hd] at hy
    simp only [List.head?_cons, Option.some.injEq] at hy
    rw [← hy]
    exact hd

theorem dropWhile_head_not_of_head? (p : Char → Bool) (l : Str) :
    ∀ d, (l.dropWhile p).head? = some d → ¬ p d = true := by
  intro d hd
  cases hvw : l.dropWhile p with
  | nil => rw [hvw] at hd; exact absurd hd (by simp)
  | cons a t =>
    rw [hvw] at hd
    simp only [List.head?_cons, Option.some.injEq] at hd
    subst hd
    simp [dropWhile_head_not p l a t hvw]

theorem collapseWs_goodWs : ∀ s : Str, goodWs (collapseWs s)
  | [] => by
    rw [show collapseWs [] = [] from rfl]
    exact goodWs_nil
  | c :: r => by
    rw [collapseWs_cons]
    by_cases hc : isJsWs c = true
    · rw [if_pos hc]
      have ih := collapseWs_goodWs (r.dropWhile isJsWs)
      have hhead : ∀ y, (collapseWs (r.dropWhile isJsWs)).head? = some y →
          ¬ isJsWs y = true :=
        head_collapseWs_not_ws _ (dropWhile_head_not_of_head? isJsWs r)
      refine ⟨List.chain'_cons'.mpr ⟨fun y hy hb => hhead y hy hb.2, ih.1⟩, ?_⟩
      intro x hx hw
      rcases List.mem_cons.mp hx with rfl | hx'
      · rfl
      · exact ih.2 x hx' hw
    · rw [if_neg hc]
      have ih := collapseWs_goodWs r
      refine ⟨List.chain'_cons'.mpr ⟨fun y _ hb => hc hb.1, ih.1⟩, ?_⟩
      intro x hx hw
      rcases List.mem_cons.mp hx with rfl | hx'
      · exact absurd hw hc
      · exact ih.2 x hx' hw
  termination_by s => s.length
  decreasing_by
    · simpa using Nat.lt_succ_of_le (List.dropWhile_suffix isJsWs (l := r)).length_le
    · simp

theorem collapseWs_eq_self (s : Str) (h : goodWs s) : collapseWs s = s := by
  induction s with
  | nil => rfl
  | cons c r ih =>
    rw [collapseWs_cons]
    by_cases hc : isJsWs c = true
    · rw [if_pos hc]
      have hc' : c = ' ' := h.2 c (List.mem_cons_self c r) hc
      have hr : r.dropWhile isJsWs = r := by
        cases r with
        | nil => rfl
        | cons d r' =>
          have hR := List.chain'_cons.mp h.1
          have hd : isJsWs d = false := by
            cases hdw : isJsWs d with
            | false => rfl
            | true => exact absurd ⟨hc, hdw⟩ hR.1
          simp [List.dropWhile_cons, hd]
      rw [hr, ih (goodWs_tail h), hc']
    · rw [if_neg hc, ih (goodWs_tail h)]

theorem trimHead_eq_self (s : Str)
    (h : ∀ d, s.head? = some d → ¬ isJsWs d = true) : trimHead s = s := by
  cases s with
  | nil => rfl
  | cons c r =>
    have hc : ¬ isJsWs c = true := h c rfl
    show (c :: r).dropWhile isJsWs = c :: r
    simp [List.dropWhile_cons, hc]

theorem trimTail_eq_self (s : Str)
    (h : ∀ d, s.getLast? = some d → ¬ isJsWs d = true) : trimTail s = s := by
  rw [trimTail,
    show s.reverse.dropWhile isJsWs = s.reverse from
      trimHead_eq_self s.reverse (fun d hd => h d (by rwa [List.head?_reverse] at hd)),
    List.reverse_reverse]

theorem dropWhile_append_of_head (p : Char → Bool) (k P : Str)
    (hP : ∀ d, P.head? = some d → ¬ p d = true) :
    (k ++ P).dropWhile p = k.dropWhile p ++ P := by
  induction k with
  | nil =>
    simp only [List.nil_append, List.dropWhile_nil]
    cases P with
    | nil => rfl
    | cons c r => simp [List.dropWhile_cons, hP c rfl]
  | cons c k' ih =>
    rw [List.cons_append, List.dropWhile_cons, List.dropWhile_cons]
    by_cases hc : p c
    · rw [if_pos hc, if_pos hc, ih]
    · rw [if_neg hc, if_neg hc, List.cons_append]

theorem collapseWs_append (P : Str) (hP : ∀ d, P.head? = some d → ¬ isJsWs d = true) :
    ∀ k : Str, collapseWs (k ++ P) = collapseWs k ++ collapseWs P
  | [] => by simp [show collapseWs [] = [] from rfl]
  | c :: k' => by
    rw [List.cons_append, collapseWs_cons, collapseWs_cons]
    by_cases hc : isJsWs c = true
    · rw [if_pos hc, if_pos hc]
      rw [dropWhile_append_of_head isJsWs k' P hP]
      rw [collapseWs_append P hP (k'.dropWhile isJsWs)]
      rfl
    · rw [if_neg hc, if_neg hc]
      rw [collapseWs_append P hP k']
      rfl
  termination_by k => k.length
  decreasing_by
    · simp only [List.length_cons]
      exact Nat.lt_succ_of_le (List.dropWhile_suffix isJsWs).length_le
    · simp

theorem goodWs_suffix {s t : Str} (h : goodWs s) (hst : t <:+ s) : goodWs t :=
  ⟨h.1.suffix hst, fun c hc hw => h.2 c (hst.subset hc) hw⟩

theorem goodWs_of_pre {s t : Str} (h : goodWs s) (hst : t <+: s) : goodWs t := by
  have hch := h.1
  refine ⟨?_, fun c hc hw => h.2 c (hst.subset hc) hw⟩
  exact hch.prefix hst

theorem ellipsisBase_length_le (value : Str) (n : Nat) :
    (ellipsisBase value n).length ≤ n := by
  rw [ellipsisBase]
  cases lastSpaceIdx (value.take n) with
  | none =>
    show (value.take n).length ≤ n
    simp only [List.length_take]
    omega
  | some i =>
    show (if floorSixTenths n < i then (value.take n).take i else value.take n).length ≤ n
    by_cases hfl : floorSixTenths n < i
    · rw [if_pos hfl]
      simp only [List.length_take]
      omega
    · rw [if_neg hfl]
      simp only [List.length_take]
      omega

theorem truncateWithEllipsis_long (value : Str)
    (hlen : metaDescriptionMaxLength < value.length) :
    (truncateWithEllipsis value metaDescriptionMaxLength).length ≤ 158 ∧
    ∃ pfx, truncateWithEllipsis value metaDescriptionMaxLength = pfx ++ ("...".data) := by
  rw [truncateWithEllipsis, if_neg (by omega)]
  refine ⟨?_, ⟨_, rfl⟩⟩
  have h1 : ((ellipsisBase value metaDescriptionMaxLength).reverse.dropWhile
      isTrailStrip).length ≤ 155 := by
    have h2 := (List.dropWhile_suffix (l := (ellipsisBase value
      metaDescriptionMaxLength).reverse) isTrailStrip).length_le
    have h3 := ellipsisBase_length_le value metaDescriptionMaxLength
    have h5 : metaDescriptionMaxLength = 155 := rfl
    rw [List.length_reverse] at h2
    omega
  simp only [List.length_append, List.length_reverse, List.length_cons, List.length_nil]
  omega

set_option maxRecDepth 40000 in
/-- C4 counterexample: keyword `trains` — free of regex metacharacters, so
the modelling of the keyword test is faithful — and an article whose
tag-stripped plain text is exactly 200 characters (193 `x`s, a space, and a
final `trains`).  The meta description has 158 characters — more than the
claimed 155 — and, because the only keyword occurrence lies beyond the
155-character cut, the keyword is absent from the result. -/
theorem c4_counterexample :
    plainKeyword ("trains".data) = true ∧
    (htmlToPlainText (List.replicate 193 'x' ++ " trains".data)).length = 200 ∧
    (buildMetaDescription ("trains".data)
      (List.replicate 193 'x' ++ " trains".data)).length = 158 ∧
    containsSub
      (buildMetaDescription ("trains".data) (List.replicate 193 'x' ++ " trains".data))
      ("trains".data) = false :=
  ⟨by decide, by decide, by decide, by decide⟩

/-- C4 (amended): for every keyword free of regex metacharacters — on other
keywords the source's broken escaping lets the raw keyword reach
`new RegExp`, which can throw a SyntaxError or give the pattern regex
rather than literal meaning, so they are outside this statement — and every
article HTML whose tag-stripped plain text has exactly 200 characters, the
meta description is at most 158 characters (a base of at most 155 plus the
appended ellipsis) and ends in `...`; the keyword itself is not guaranteed
to survive the truncation. -/
theorem c4_amended (keyword html : Str)
    (_hplain : plainKeyword keyword = true)
    (hlen : (htmlToPlainText html).length = 200) :
    (buildMetaDescription keyword html).length ≤ 158 ∧
    ∃ pfx, buildMetaDescription keyword html = pfx ++ ("...".data) := by
  have hPne : htmlToPlainText html ≠ [] := by
    intro h
    rw [h] at hlen
    simp at hlen
  have hPdef : htmlToPlainText html =
      trimTail (trimHead (collapseWs (replaceMatches nbspAt [' ']
        (replaceMatches anyTagAt [' '] (replaceMatches scriptBlockAt [' ']
          (replaceMatches styleBlockAt [' '] html)))))) := rfl
  set W : Str := collapseWs (replaceMatches nbspAt [' ']
    (replaceMatches anyTagAt [' '] (replaceMatches scriptBlockAt [' ']
      (replaceMatches styleBlockAt [' '] html)))) with hW
  have hgoodW : goodWs W := collapseWs_goodWs _
  have hgoodP : goodWs (htmlToPlainText html) := by
    rw [hPdef]
    obtain ⟨u, hu⟩ := trimTail_prefix_ex (trimHead W)
    exact goodWs_of_pre (goodWs_suffix hgoodW (List.dropWhile_suffix isJsWs)) ⟨u, hu⟩
  have hheadP : ∀ d, (htmlToPlainText html).head? = some d → ¬ isJsWs d = true := by
    intro d hd
    rw [hPdef] at hd
    obtain ⟨u, hu⟩ := trimTail_prefix_ex (trimHead W)
    have hh : (trimHead W).head? = some d := by
      cases hvt : trimTail (trimHead W) with
      | nil => rw [hvt] at hd; simp at hd
      | cons a t =>
        rw [hvt] at hd
        simp only [List.head?_cons, Option.some.injEq] at hd
        rw [hvt] at hu
        rw [← hu, List.cons_append, List.head?_cons, hd]
    exact dropWhile_head_not_of_head? isJsWs W d hh
  have hlastP : ∀ d, (htmlToPlainText html).getLast? = some d → ¬ isJsWs d = true := by
    intro d hd
    rw [hPdef] at hd
    have hh : ((trimHead W).reverse.dropWhile isJsWs).head? = some d := by
      rw [← List.getLast?_reverse]
      exact hd
    exact dropWhile_head_not_of_head? isJsWs (trimHead W).reverse d hh
  rw [buildMetaDescription]
  dsimp only
  rw [if_neg hPne]
  by_cases hkw : keywordMatches keyword (htmlToPlainText html) = true
  · rw [if_pos hkw]
    have hclean : jsTrim (collapseWs (htmlToPlainText html)) = htmlToPlainText html := by
      rw [collapseWs_eq_self _ hgoodP]
      show trimTail (trimHead (htmlToPlainText html)) = _
      rw [trimHead_eq_self _ hheadP, trimTail_eq_self _ hlastP]
    rw [hclean]
    exact truncateWithEllipsis_long _ (by rw [hlen]; decide)
  · rw [if_neg hkw]
    have hQhead : ∀ d, (('.' :: ' ' :: htmlToPlainText html) : Str).head? = some d →
        ¬ isJsWs d = true := by
      intro d hd
      simp only [List.head?_cons, Option.some.injEq] at hd
      rw [← hd]
      decide
    have hsplit := collapseWs_append ('.' :: ' ' :: htmlToPlainText html) hQhead keyword
    have hQ : collapseWs ('.' :: ' ' :: htmlToPlainText html) =
        '.' :: ' ' :: htmlToPlainText html := by
      rw [collapseWs_cons, if_neg (by decide), collapseWs_cons, if_pos (by decide)]
      rw [show (htmlToPlainText html).dropWhile isJsWs = htmlToPlainText html from
        trimHead_eq_self _ hheadP]
      rw [collapseWs_eq_self _ hgoodP]
    have hTH : (collapseWs keyword ++ ('.' :: ' ' :: htmlToPlainText html)).dropWhile isJsWs =
        (collapseWs keyword).dropWhile isJsWs ++ ('.' :: ' ' :: htmlToPlainText html) :=
      dropWhile_append_of_head isJsWs (collapseWs keyword) _ hQhead
    have hTT : trimTail ((collapseWs keyword).dropWhile isJsWs ++
        ('.' :: ' ' :: htmlToPlainText html)) =
        (collapseWs keyword).dropWhile isJsWs ++ ('.' :: ' ' :: htmlToPlainText html) := by
      apply trimTail_eq_self
      intro d hd
      rw [List.getLast?_append_of_ne_nil _ (by simp)] at hd
      rw [show ('.' :: ' ' :: htmlToPlainText html : Str) =
        ['.', ' '] ++ htmlToPlainText html from rfl] at hd
      rw [List.getLast?_append_of_ne_nil _ hPne] at hd
      exact hlastP d hd
    have hclean : jsTrim (collapseWs (keyword ++ ('.' :: ' ' :: htmlToPlainText html))) =
        (collapseWs keyword).dropWhile isJsWs ++ ('.' :: ' ' :: htmlToPlainText html) := by
      show trimTail (trimHead (collapseWs (keyword ++ ('.' :: ' ' :: htmlToPlainText html)))) = _
      rw [hsplit, hQ]
      show trimTail ((collapseWs keyword ++
        ('.' :: ' ' :: htmlToPlainText html)).dropWhile isJsWs) = _
      rw [hTH, hTT]
    rw [hclean]
    apply truncateWithEllipsis_long
    rw [show metaDescriptionMaxLength = 155 from rfl]
    simp only [List.length_append, List.length_cons, hlen]
    omega

set_option maxRecDepth 40000 in
/-- C4 witness: the amended bound evaluated at the counterexample input. -/
theorem c4_witness :
    plainKeyword ("trains".data) = true ∧
    (htmlToPlainText (List.replicate 193 'x' ++ " trains".data)).length = 200 ∧
    ((buildMetaDescription ("trains".data)
        (List.replicate 193 'x' ++ " trains".data)).length ≤ 158 ∧
      ∃ pfx, buildMetaDescription ("trains".data)
        (List.replicate 193 'x' ++ " trains".data) = pfx ++ ("...".data)) :=
  ⟨by decide, by decide,
   c4_amended ("trains".data) (List.replicate 193 'x' ++ " trains".data)
     (by decide) (by decide)⟩
